import Mathlib

/-!
Verification of the apollo-rs excerpt: the error-recovering union-type
grammar of apollo-parser (src/crates/apollo-parser/src/parser/grammar/union_.rs)
and the memoizing query layer of apollo-compiler
(src/crates/apollo-compiler/src/database/repr.rs).

Machinery the excerpt calls but does not contain (the lexer, the generic
Parser primitives, the name/type/directive sub-grammars, the AST lowering,
the schema and executable builders, and the salsa memoization runtime) is
modelled from the specification; each such definition carries a doc comment
starting with "Modelled from the spec:".
-/

namespace ApolloRs

/-- Token kinds relevant to the union grammar (spec section 3, Token). -/
inductive TokenKind where
  | name
  | stringValue
  | eq
  | pipe
  | at_
  | whitespace
  | errorTok
deriving DecidableEq, Repr

/-- A lexed token: kind, raw text and byte offset (spec section 3, Token). -/
structure Token where
  kind : TokenKind
  data : String
  index : Nat
deriving DecidableEq, Repr

/-- Syntax kinds appearing in the CSTs built by the union grammar. -/
inductive SyntaxKind where
  | UNION_TYPE_DEFINITION
  | UNION_TYPE_EXTENSION
  | UNION_MEMBER_TYPES
  | NAMED_TYPE
  | NAME
  | DIRECTIVES
  | DIRECTIVE
  | DESCRIPTION
  | union_KW
  | extend_KW
  | IDENT
  | EQ
  | PIPE
  | AT
  | WHITESPACE
  | STRING_VALUE
  | OPERATION_DEFINITION
  | UNKNOWN
deriving DecidableEq, Repr

/-- Modelled from the spec: name characters of GraphQL names (spec section 3;
the lexer itself, component C1, is not under src/). -/
def isNameChar (c : Char) : Bool := c.isAlphanum || c == '_'

/-- Modelled from the spec: ignored characters: whitespace, line terminators
and commas (spec sections 3 and 4.1). -/
def isSpaceChar (c : Char) : Bool :=
  c == ' ' || c == '\n' || c == '\t' || c == ',' || c == '\r'

/-- Modelled from the spec: the lexer (component C1, spec section 4.1) is not
under src/.  It turns the character list into tokens carrying their byte
offset; whitespace runs become single trivia tokens, names are maximal runs
of name characters, and the punctuators `=`, `|`, `@` are single-character
tokens.  All inputs used in this file are ASCII, so byte offsets and
character counts agree.  The fuel is the number of remaining characters. -/
def lexFrom : Nat → Nat → List Char → List Token
  | 0, _, _ => []
  | _, _, [] => []
  | Nat.succ fuel, pos, c :: cs =>
    if isSpaceChar c then
      let run := List.takeWhile isSpaceChar (c :: cs)
      let rest := List.dropWhile isSpaceChar (c :: cs)
      Token.mk TokenKind.whitespace (String.mk run) pos ::
        lexFrom fuel (pos + run.length) rest
    else if isNameChar c then
      let run := List.takeWhile isNameChar (c :: cs)
      let rest := List.dropWhile isNameChar (c :: cs)
      Token.mk TokenKind.name (String.mk run) pos ::
        lexFrom fuel (pos + run.length) rest
    else if c == '=' then
      Token.mk TokenKind.eq "=" pos :: lexFrom fuel (pos + 1) cs
    else if c == '|' then
      Token.mk TokenKind.pipe "|" pos :: lexFrom fuel (pos + 1) cs
    else if c == '@' then
      Token.mk TokenKind.at_ "@" pos :: lexFrom fuel (pos + 1) cs
    else
      Token.mk TokenKind.errorTok (String.mk [c]) pos :: lexFrom fuel (pos + 1) cs

/-- Modelled from the spec: lex a whole source string (spec section 4.1). -/
def lex (s : String) : List Token := lexFrom s.length 0 s.data

/-- Concrete syntax tree: a rose tree of nodes over token leaves
(spec section 3, SyntaxNode). -/
inductive CST where
  | node (kind : SyntaxKind) (children : List CST)
  | leaf (kind : SyntaxKind) (tok : Token)
deriving Repr

mutual

/-- All tokens of a CST, in source order. -/
def CST.tokensOf : CST → List Token
  | CST.leaf _ t => [t]
  | CST.node _ cs => CST.tokensOfList cs

/-- All tokens of a CST forest, in source order. -/
def CST.tokensOfList : List CST → List Token
  | [] => []
  | c :: cs => CST.tokensOf c ++ CST.tokensOfList cs

end

/-- Start byte offset of a CST node (offset of its first token). -/
def CST.spanStart (c : CST) : Nat :=
  (CST.tokensOf c).head?.elim 0 Token.index

/-- End byte offset of a CST node (end of its last token). -/
def CST.spanStop (c : CST) : Nat :=
  (CST.tokensOf c).getLast?.elim 0 (fun t => t.index + t.data.length)

mutual

/-- Nesting depth of a CST. -/
def CST.depth : CST → Nat
  | CST.leaf _ _ => 1
  | CST.node _ cs => 1 + CST.depthList cs

/-- Maximum nesting depth of a CST forest. -/
def CST.depthList : List CST → Nat
  | [] => 0
  | c :: cs => max (CST.depth c) (CST.depthList cs)

end

/-- A parse error as recorded by the parser: message, current-token text and
recorded index, plus whether it is a limit error (spec section 4.2; the
rendered test trees in union_.rs print these as ERROR at index 0 with the
length of the token text). -/
structure PError where
  message : String
  data : String
  index : Nat
  isLimit : Bool
deriving DecidableEq, Repr

/-- Parser state: the remaining tokens and the accumulated error list.
The CST being built is returned functionally by each grammar function:
the start_node guard of the Rust parser guarantees that every opened node
is finished, which the functional style realizes by construction
(spec section 4.2: "Every path that starts a node guarantees matching
finish, even on error"). -/
structure PState where
  tokens : List Token
  errors : List PError
deriving Repr

/-- Whether a token is trivia (ignored by peeking). -/
def isTriviaTok (t : Token) : Bool :=
  match t.kind with
  | TokenKind.whitespace => true
  | _ => false

/-- Whether a token is a pipe. -/
def isPipeTok (t : Token) : Bool :=
  match t.kind with
  | TokenKind.pipe => true
  | _ => false

/-- The significant (non-trivia) tokens of a token list. -/
def sigTokens (ts : List Token) : List Token := ts.filter (fun t => !isTriviaTok t)

/-- Modelled from the spec: Parser::peek is not under src/; it looks at the
next non-ignored token without consuming (spec section 4.2). -/
def peekTok (s : PState) : Option Token := (s.tokens.dropWhile isTriviaTok).head?

/-- Kind of the next significant token, as Parser::peek returns it. -/
def peekKind (s : PState) : Option TokenKind := Option.map Token.kind (peekTok s)

/-- Modelled from the spec: Parser::peek_data is not under src/; it returns
the text of the next non-ignored token, if any remains (spec section 9:
member-type parsing recurses on "any remaining token"). -/
def peekData (s : PState) : Option String := Option.map Token.data (peekTok s)

/-- Modelled from the spec: Parser::err is not under src/.  It records the
message together with the current token text ("EOF" at end of input) without
consuming anything; the rendered test trees in union_.rs print these errors
with index 0 and the length of that text. -/
def errP (msg : String) (s : PState) : PState :=
  { s with errors := s.errors ++ [PError.mk msg ((peekData s).getD "EOF") 0 false] }

/-- Modelled from the spec: Parser::bump is not under src/.  It
"unconditionally consumes the current token into the open node"
(spec section 4.2) under the given syntax kind; the trivia tokens
surrounding it are consumed into the same node, trailing trivia eagerly,
exactly as the rendered test trees in union_.rs place whitespace after the
bumped token inside the node that was open at the time. -/
def bumpP (k : SyntaxKind) (s : PState) : List CST × PState :=
  let lead := List.takeWhile isTriviaTok s.tokens
  let rest := List.dropWhile isTriviaTok s.tokens
  match rest with
  | [] => (lead.map (fun t => CST.leaf SyntaxKind.WHITESPACE t), { s with tokens := [] })
  | t :: rest2 =>
    let trail := List.takeWhile isTriviaTok rest2
    let rest3 := List.dropWhile isTriviaTok rest2
    (lead.map (fun t2 => CST.leaf SyntaxKind.WHITESPACE t2) ++
       (CST.leaf k t :: trail.map (fun t2 => CST.leaf SyntaxKind.WHITESPACE t2)),
     { s with tokens := rest3 })

/-- Modelled from the spec: grammar/name.rs is not under src/.  name::name
parses the current Name token into a NAME node; the union grammar only calls
it after peeking a Name token.  A missing Name is reported as
"expected a Name" (spec section 4.2). -/
def nameG (s : PState) : List CST × PState :=
  match peekKind s with
  | some TokenKind.name =>
    let r := bumpP SyntaxKind.IDENT s
    ([CST.node SyntaxKind.NAME r.1], r.2)
  | _ => ([], errP "expected a Name" s)

/-- Modelled from the spec: grammar/ty.rs is not under src/.  ty::named_type
wraps a Name into a NAMED_TYPE node, as the rendered test trees show. -/
def named_type (s : PState) : List CST × PState :=
  let r := nameG s
  ([CST.node SyntaxKind.NAMED_TYPE r.1], r.2)

/-- Modelled from the spec: grammar/directive.rs is not under src/.  A
directive is `@` followed by a Name, in a DIRECTIVE node (arguments do not
occur in the inputs of this file). -/
def directiveG (s : PState) : List CST × PState :=
  let r1 := bumpP SyntaxKind.AT s
  let r2 := nameG r1.2
  ([CST.node SyntaxKind.DIRECTIVE (r1.1 ++ r2.1)], r2.2)

/-- Modelled from the spec: the directive list loop; it parses directive
nodes while the next token is `@`.  Fuel is the number of remaining
tokens. -/
def directivesLoop : Nat → PState → List CST × PState
  | 0, s => ([], s)
  | Nat.succ fuel, s =>
    match peekKind s with
    | some TokenKind.at_ =>
      let r := directiveG s
      let r2 := directivesLoop fuel r.2
      (r.1 ++ r2.1, r2.2)
    | _ => ([], s)

/-- Modelled from the spec: grammar/directive.rs directives, wrapping the
directive nodes in a DIRECTIVES node. -/
def directivesG (s : PState) : List CST × PState :=
  let r := directivesLoop s.tokens.length s
  ([CST.node SyntaxKind.DIRECTIVES r.1], r.2)

/-- Modelled from the spec: grammar/description.rs is not under src/.  A
description is a single string-value token in a DESCRIPTION node. -/
def descriptionG (s : PState) : List CST × PState :=
  let r := bumpP SyntaxKind.STRING_VALUE s
  ([CST.node SyntaxKind.DESCRIPTION r.1], r.2)

/-- union_member_type, src/crates/apollo-parser/src/parser/grammar/union_.rs
lines 83-101: a leading `|` is consumed and the function recurses; a Name
becomes a NamedType, and parsing continues when peek_data reports any
remaining token; otherwise "expected Union Member Types" is reported unless
a member was already parsed (is_union).  The recursion is given explicit
fuel; every recursive call happens after at least one token was consumed, so
the token count plus one supplied by union_member_types is enough. -/
def union_member_type : Nat → Bool → PState → List CST × PState
  | 0, _, s => ([], s)
  | Nat.succ fuel, is_union, s =>
    match peekKind s with
    | some TokenKind.pipe =>
      let r := bumpP SyntaxKind.PIPE s
      let r2 := union_member_type fuel is_union r.2
      (r.1 ++ r2.1, r2.2)
    | some TokenKind.name =>
      let r := named_type s
      if (peekData r.2).isSome then
        let r2 := union_member_type fuel true r.2
        (r.1 ++ r2.1, r2.2)
      else (r.1, r.2)
    | _ => ([], if is_union then s else errP "expected Union Member Types" s)

/-- union_member_types, src lines 76-81: open UNION_MEMBER_TYPES, bump `=`
unconditionally, then parse the member list. -/
def union_member_types (s : PState) : List CST × PState :=
  let r := bumpP SyntaxKind.EQ s
  let r2 := union_member_type (r.2.tokens.length + 1) false r.2
  ([CST.node SyntaxKind.UNION_MEMBER_TYPES (r.1 ++ r2.1)], r2.2)

/-- The Name-or-error step shared by union_type_definition (src lines
21-24) and union_type_extension (src lines 49-52): parse a Name when one
is next, otherwise report "expected a Name" and continue. -/
def nameOrErr (s : PState) : List CST × PState :=
  match peekKind s with
  | some TokenKind.name => nameG s
  | _ => ([], errP "expected a Name" s)

/-- The Name / Directives / UnionMemberTypes tail of union_type_definition
(src lines 21-32), shared by the keyword and the no-keyword path: Name or
error "expected a Name"; directives if `@` follows; member types if `=`
follows. -/
def utd_tail (s : PState) : List CST × PState :=
  let rn := nameOrErr s
  let rdir := if peekKind rn.2 = some TokenKind.at_ then directivesG rn.2 else ([], rn.2)
  let rm := if peekKind rdir.2 = some TokenKind.eq then union_member_types rdir.2 else ([], rdir.2)
  (rn.1 ++ rdir.1 ++ rm.1, rm.2)

/-- The optional description phase of union_type_definition
(src lines 13-15). -/
def utd_desc (s : PState) : List CST × PState :=
  if peekKind s = some TokenKind.stringValue then descriptionG s else ([], s)

/-- union_type_definition, src lines 10-33: always opens (and, by guard,
finishes) a UNION_TYPE_DEFINITION node; optional description; union_KW
bumped only when the next token text is "union"; then the shared tail. -/
def union_type_definition (s : PState) : CST × PState :=
  let rd := utd_desc s
  let rk :=
    if peekData rd.2 = some "union" then bumpP SyntaxKind.union_KW rd.2 else ([], rd.2)
  let rt := utd_tail rk.2
  (CST.node SyntaxKind.UNION_TYPE_DEFINITION (rd.1 ++ rk.1 ++ rt.1), rt.2)

/-- The extend_KW / union_KW / Name prefix of union_type_extension
(src lines 44-52). -/
def ute_start (s : PState) : List CST × PState :=
  let re := bumpP SyntaxKind.extend_KW s
  let rk := bumpP SyntaxKind.union_KW re.2
  let rn := nameOrErr rk.2
  (re.1 ++ rk.1 ++ rn.1, rn.2)

/-- The optional directives phase of union_type_extension (src lines
54-57); it runs exactly when the next token is `@`, the condition that
also sets meets_requirements. -/
def ute_dirs (s : PState) : List CST × PState :=
  if peekKind s = some TokenKind.at_ then directivesG s else ([], s)

/-- union_type_extension, src lines 42-67: bump extend_KW and union_KW,
Name or error, optional directives and member types while tracking
meets_requirements, and the error "expected Directives or Union Member
Types" when neither was parsed. -/
def union_type_extension (s : PState) : CST × PState :=
  let rp := ute_start s
  let meets1 : Bool := peekKind rp.2 = some TokenKind.at_
  let rdir := ute_dirs rp.2
  let meets2 : Bool := peekKind rdir.2 = some TokenKind.eq
  let rm := if peekKind rdir.2 = some TokenKind.eq then union_member_types rdir.2 else ([], rdir.2)
  let s4 := if meets1 || meets2 then rm.2 else errP "expected Directives or Union Member Types" rm.2
  (CST.node SyntaxKind.UNION_TYPE_EXTENSION (rp.1 ++ rdir.1 ++ rm.1), s4)

/-- The syntax kind at the root of a CST. -/
def CST.kindOf : CST → SyntaxKind
  | CST.node k _ => k
  | CST.leaf k _ => k

/-- The immediate children of a CST node (a leaf has none). -/
def CST.childrenOf : CST → List CST
  | CST.node _ cs => cs
  | CST.leaf _ _ => []

/-- Whether an immediate child of the node is a leaf of the given kind. -/
def hasTopLeaf (k : SyntaxKind) (c : CST) : Bool :=
  (CST.childrenOf c).any fun ch =>
    match ch with
    | CST.leaf k2 _ => decide (k2 = k)
    | _ => false

/-- Count, among the immediate children, the leaves of the given kind. -/
def countTopLeaf (k : SyntaxKind) (c : CST) : Nat :=
  ((CST.childrenOf c).filter fun ch =>
    match ch with
    | CST.leaf k2 _ => decide (k2 = k)
    | _ => false).length

/-- The first child node of the given kind, if any. -/
def findTopNode (k : SyntaxKind) (c : CST) : Option CST :=
  (CST.childrenOf c).find? fun ch =>
    match ch with
    | CST.node k2 _ => decide (k2 = k)
    | _ => false

/-- The names of the member types of a union definition or extension node:
the texts of the first tokens of the NAMED_TYPE children of its
UNION_MEMBER_TYPES child. -/
def memberNamesOf (c : CST) : List String :=
  match findTopNode SyntaxKind.UNION_MEMBER_TYPES c with
  | none => []
  | some m =>
    (CST.childrenOf m).filterMap fun ch =>
      match ch with
      | CST.node SyntaxKind.NAMED_TYPE cs => Option.map Token.data (CST.tokensOfList cs).head?
      | _ => none

/-- How many errors of the list carry the given message. -/
def countMsg (m : String) (errs : List PError) : Nat :=
  (errs.filter fun e => e.message == m).length

/-- Modelled from the spec: take the prefix of a token list holding at most
n significant tokens (used for the token limit, spec section 4.1). -/
def takeSigPrefix : Nat → List Token → List Token
  | _, [] => []
  | n, t :: ts =>
    if isTriviaTok t then t :: takeSigPrefix n ts
    else
      match n with
      | 0 => []
      | Nat.succ m => t :: takeSigPrefix m ts

/-- Modelled from the spec: the document-level parse loop (the top level of
component C2) is not under src/.  It dispatches on the text of the next
significant token: "union" goes to union_type_definition, "extend" to
union_type_extension, "query" is consumed as a minimal operation definition
(keyword plus optional name), and any other token is consumed as an
unrecognized top-level token.  Fuel is the token count plus one; every
branch consumes at least one token. -/
def docLoop : Nat → PState → List CST × PState
  | 0, s => ([], s)
  | Nat.succ fuel, s =>
    match peekData s with
    | none => ([], s)
    | some d =>
      if d = "union" then
        let r := union_type_definition s
        let r2 := docLoop fuel r.2
        (r.1 :: r2.1, r2.2)
      else if d = "extend" then
        let r := union_type_extension s
        let r2 := docLoop fuel r.2
        (r.1 :: r2.1, r2.2)
      else if d = "query" then
        let r := bumpP SyntaxKind.IDENT s
        let rn := if peekKind r.2 = some TokenKind.name then nameG r.2 else ([], r.2)
        let r2 := docLoop fuel rn.2
        (CST.node SyntaxKind.OPERATION_DEFINITION (r.1 ++ rn.1) :: r2.1, r2.2)
      else
        let r := bumpP SyntaxKind.UNKNOWN s
        let r2 := docLoop fuel r.2
        (CST.node SyntaxKind.UNKNOWN r.1 :: r2.1, r2.2)

/-- The result of a parse, as repr.rs reads it from
apollo_parser::SyntaxTree: the document forest, the error list, and the
recursion and token high-water marks. -/
structure SyntaxTree where
  document : List CST
  errors : List PError
  recursionHigh : Nat
  tokensHigh : Nat

/-- Modelled from the spec: apollo_parser::Parser::parse with the optional
limits (spec sections 4.1 and 4.2) is not under src/.  The token high-water
mark is the number of significant tokens, reported whether or not the limit
is exceeded; when the token limit is exceeded the stream is truncated at the
limit and a limit error recorded.  The recursion high-water mark is
reported as the depth of the parsed forest; enforcement of the recursion
limit is not modelled, but the limit remains an input of the parse exactly
as repr.rs passes it. -/
def apolloParse (text : String) (recursion_limit token_limit : Option Nat) : SyntaxTree :=
  let toks := lex text
  let high := (sigTokens toks).length
  let cut : Bool :=
    match token_limit with
    | some n => decide (n < high)
    | none => false
  let toks2 :=
    match token_limit with
    | some n => if n < high then takeSigPrefix n toks else toks
    | none => toks
  let r := docLoop (toks2.length + 1) (PState.mk toks2 [])
  let errs := r.2.errors ++ (if cut then [PError.mk "token limit exceeded" "" 0 true] else [])
  SyntaxTree.mk r.1 errs (CST.depthList r.1) high

/-- Opaque stable identifier of an input file (spec section 3, FileId). -/
abbrev FileId := Nat

/-- Modelled from the spec: file kinds partition inputs into schema and
executable files (spec section 3, Source).  No derived query in repr.rs
reads the kind; it is carried as a database input. -/
inductive FileKind where
  | schemaFile
  | executableFile
deriving DecidableEq, Repr

/-- The database inputs of spec section 4.5, set by the mutations of the
external interface (spec section 6). -/
structure DBInputs where
  source_code : FileId → String
  file_kind : FileId → FileKind
  type_definition_files : List FileId
  recursion_limit : Option Nat
  token_limit : Option Nat

/-- A source location carried by a diagnostic: file, byte offset, byte
length (spec section 3, Diagnostic). -/
structure DiagLoc where
  file : FileId
  offset : Nat
  length : Nat
deriving DecidableEq, Repr

/-- Modelled from the spec: the diagnostic kinds repr.rs constructs
(LimitExceeded and SyntaxError; crate::diagnostics is not under src/). -/
inductive DiagnosticData where
  | limitExceeded (message : String)
  | syntaxError (message : String)
deriving DecidableEq, Repr

/-- A labelled span attached to a diagnostic. -/
structure DiagLabel where
  loc : DiagLoc
  text : String
deriving DecidableEq, Repr

/-- Modelled from the spec: ApolloDiagnostic as repr.rs builds it: a
location, the diagnostic data, and one label per repr.rs lines 100-127. -/
structure ApolloDiagnostic where
  loc : DiagLoc
  data : DiagnosticData
  labels : List DiagLabel
deriving DecidableEq, Repr

/-- The error-to-diagnostic mapping of ast_parse_result, repr.rs lines
100-128: a limit error becomes LimitExceeded, any other becomes
SyntaxError, both located at (file, index, data length) with one label
carrying the message. -/
def toDiagnostic (file : FileId) (e : PError) : ApolloDiagnostic :=
  if e.isLimit then
    ApolloDiagnostic.mk (DiagLoc.mk file e.index e.data.length)
      (DiagnosticData.limitExceeded e.message)
      [DiagLabel.mk (DiagLoc.mk file e.index e.data.length) e.message]
  else
    ApolloDiagnostic.mk (DiagLoc.mk file e.index e.data.length)
      (DiagnosticData.syntaxError e.message)
      [DiagLabel.mk (DiagLoc.mk file e.index e.data.length) e.message]

/-- Modelled from the spec: the typed AST definitions (spec sections 3 and
4.3, ast::Document is not under src/), restricted to the definition forms
the modelled document parser produces. -/
inductive AstDefinition where
  | unionDef (name : Option String) (members : List String)
  | unionExt (name : Option String) (members : List String)
  | operationDef (name : Option String)
  | otherDef
deriving DecidableEq, Repr

/-- An AST document: the ordered top-level definitions (spec section 3). -/
abbrev Document := List AstDefinition

/-- The name of a definition node: the text of the first token of its NAME
child, if any. -/
def defName (c : CST) : Option String :=
  match findTopNode SyntaxKind.NAME c with
  | some n => Option.map Token.data (CST.tokensOf n).head?
  | none => none

/-- Modelled from the spec: AST lowering of one top-level CST node (spec
section 4.3; ast::Document::from_cst is not under src/).  Lowering is total:
missing names become none and unrecognized nodes a placeholder. -/
def from_cst_def (c : CST) : AstDefinition :=
  match CST.kindOf c with
  | SyntaxKind.UNION_TYPE_DEFINITION => AstDefinition.unionDef (defName c) (memberNamesOf c)
  | SyntaxKind.UNION_TYPE_EXTENSION => AstDefinition.unionExt (defName c) (memberNamesOf c)
  | SyntaxKind.OPERATION_DEFINITION => AstDefinition.operationDef (defName c)
  | _ => AstDefinition.otherDef

/-- Modelled from the spec: total AST lowering of the document forest
(spec section 4.3). -/
def from_cst (forest : List CST) : Document := forest.map from_cst_def

/-- ParseResult, repr.rs lines 70-76. -/
structure ParseResult where
  document : Document
  syntax_errors : List ApolloDiagnostic
  recursion_reached : Nat
  tokens_reached : Nat
deriving DecidableEq, Repr

/-- The cst query function, repr.rs lines 78-88: parse the file's source
under the configured limits. -/
def cstFn (i : DBInputs) (f : FileId) : SyntaxTree :=
  apolloParse (i.source_code f) i.recursion_limit i.token_limit

/-- The ast_parse_result query function, repr.rs lines 90-132: read the
cst, project the high-water marks, lower the document, and map each parse
error to a diagnostic. -/
def ast_parse_resultFn (i : DBInputs) (f : FileId) : ParseResult :=
  let tree := cstFn i f
  ParseResult.mk (from_cst tree.document) (tree.errors.map (toDiagnostic f))
    tree.recursionHigh tree.tokensHigh

/-- The transparent ast query, repr.rs lines 134-136. -/
def astFn (i : DBInputs) (f : FileId) : Document := (ast_parse_resultFn i f).document

/-- The transparent syntax_errors query, repr.rs lines 138-140. -/
def syntax_errorsFn (i : DBInputs) (f : FileId) : List ApolloDiagnostic :=
  (ast_parse_resultFn i f).syntax_errors

/-- The transparent recursion_reached query, repr.rs lines 142-144. -/
def recursion_reachedFn (i : DBInputs) (f : FileId) : Nat :=
  (ast_parse_resultFn i f).recursion_reached

/-- The transparent tokens_reached query, repr.rs lines 146-148. -/
def tokens_reachedFn (i : DBInputs) (f : FileId) : Nat :=
  (ast_parse_resultFn i f).tokens_reached

/-- Modelled from the spec: the kinds of schema types (spec section 3,
Schema; crate::schema is not under src/). -/
inductive ExtendedType where
  | scalarT
  | objectT (implements_interfaces : List String)
  | interfaceT (implements_interfaces : List String)
  | unionT (members : List String)
  | enumT
  | inputObjectT
deriving DecidableEq, Repr

/-- Modelled from the spec: a Schema is a collection of type definitions
keyed by name together with the diagnostics of its build (spec sections 3
and 4.4: the build "still returns a Schema (a partial one)" plus a
diagnostic list). -/
structure Schema where
  types : List (String × ExtendedType)
  build_diagnostics : List String
deriving DecidableEq, Repr

/-- First-match association lookup by name. -/
def assocFind {α : Type} (l : List (String × α)) (k : String) : Option α :=
  Option.map Prod.snd (l.find? fun p => p.1 == k)

/-- Modelled from the spec: pass one of the schema builder (spec section
4.4): collect every type definition in source order, recording
redefinitions as diagnostics. -/
def addTypeDef (acc : List (String × ExtendedType) × List String) (d : AstDefinition) :
    List (String × ExtendedType) × List String :=
  match d with
  | AstDefinition.unionDef (some n) members =>
    if (assocFind acc.1 n).isSome then (acc.1, acc.2 ++ ["redefinition of " ++ n])
    else (acc.1 ++ [(n, ExtendedType.unionT members)], acc.2)
  | _ => acc

/-- Modelled from the spec: pass two of the schema builder (spec section
4.4): apply each extension to its target; an extension whose target is
missing is collected as an orphan extension. -/
def applyExtension (acc : List (String × ExtendedType) × List AstDefinition)
    (d : AstDefinition) : List (String × ExtendedType) × List AstDefinition :=
  match d with
  | AstDefinition.unionExt (some n) members =>
    match assocFind acc.1 n with
    | some (ExtendedType.unionT old) =>
      (acc.1.map fun p => if p.1 == n then (p.1, ExtendedType.unionT (old ++ members)) else p,
       acc.2)
    | some _ => acc
    | none => (acc.1, acc.2 ++ [d])
  | AstDefinition.unionExt none _ => (acc.1, acc.2 ++ [d])
  | _ => acc

/-- Modelled from the spec: Schema::builder().build() (spec section 4.4;
crate::schema is not under src/): two passes over the added documents,
returning the schema together with the orphan extensions. -/
def buildSchema (docs : List Document) : Schema × List AstDefinition :=
  let defs := docs.flatten
  let p1 := defs.foldl addTypeDef ([], [])
  let p2 := defs.foldl applyExtension (p1.1, [])
  (Schema.mk p2.1 p1.2, p2.2)

/-- Whether the type declares that it implements the named interface. -/
def declaresInterface (t : ExtendedType) (i : String) : Bool :=
  match t with
  | ExtendedType.objectT impls => impls.contains i
  | ExtendedType.interfaceT impls => impls.contains i
  | _ => false

/-- Modelled from the spec: Schema::implementers_map is not under src/;
repr.rs lines 52-57 document it as the map from each interface name to the
names of the types that declare implementing that interface. -/
def Schema.implementers_map (s : Schema) : List (String × List String) :=
  s.types.filterMap fun p =>
    match p.2 with
    | ExtendedType.interfaceT _ =>
      some (p.1, (s.types.filter fun q => declaresInterface q.2 p.1).map Prod.fst)
    | _ => none

/-- Modelled from the spec: Schema::is_subtype is not under src/; repr.rs
lines 61-67 document it: maybe_subtype is a subtype of abstract_type when it
implements the interface abstract_type or is a member of the union
abstract_type (spec section 4.4). -/
def Schema.is_subtype (s : Schema) (implementers : List (String × List String))
    (abstract_type maybe_subtype : String) : Bool :=
  match assocFind s.types abstract_type with
  | some (ExtendedType.interfaceT _) =>
    ((assocFind implementers abstract_type).getD []).contains maybe_subtype
  | some (ExtendedType.unionT members) => members.contains maybe_subtype
  | _ => false

/-- Modelled from the spec: an executable document indexes operations by
optional name (spec sections 3 and 4.4). -/
structure ExecutableDocument where
  operations : List (Option String)
deriving DecidableEq, Repr

/-- Modelled from the spec: the fallible outcome of the executable builder
(spec section 7, TypeError). -/
structure TypeError where
  message : String
deriving DecidableEq, Repr

/-- Whether the operation name list holds a duplicate (two anonymous
operations also collide). -/
def hasDupOps : List (Option String) → Bool
  | [] => false
  | x :: xs => xs.contains x || hasDupOps xs

/-- Modelled from the spec: ExecutableDocument::from_ast is not under src/.
The executable builder checks the cheap structural rule that names are
unique and an unnamed operation occurs at most once (spec section 4.4); a
violation is the TypeError outcome, otherwise the executable document is
produced against the given schema. -/
def from_ast (s : Schema) (doc : Document) : Except TypeError ExecutableDocument :=
  let ops := doc.filterMap fun d =>
    match d with
    | AstDefinition.operationDef n => some n
    | _ => none
  if hasDupOps ops then Except.error (TypeError.mk "duplicate operation name")
  else Except.ok (ExecutableDocument.mk ops)

/-- The schema query function, repr.rs lines 150-157: fold the ASTs of the
type-definition files into the builder and keep only the Schema component
of its result, discarding the orphan extensions. -/
def schemaFn (i : DBInputs) : Schema :=
  (buildSchema (i.type_definition_files.map fun f => astFn i f)).1

/-- The executable_document query function, repr.rs lines 159-164. -/
def executable_documentFn (i : DBInputs) (f : FileId) :
    Except TypeError ExecutableDocument :=
  from_ast (schemaFn i) (astFn i f)

/-- The implementers_map query function, repr.rs lines 166-168. -/
def implementers_mapFn (i : DBInputs) : List (String × List String) :=
  Schema.implementers_map (schemaFn i)

/-- The transparent is_subtype query function, repr.rs lines 170-173. -/
def is_subtypeFn (i : DBInputs) (abstract_type maybe_subtype : String) : Bool :=
  Schema.is_subtype (schemaFn i) (implementers_mapFn i) abstract_type maybe_subtype

/-- First-match association lookup by file id. -/
def lookupF {α : Type} (l : List (FileId × α)) (f : FileId) : Option α :=
  Option.map Prod.snd (l.find? fun p => p.1 == f)

/-- Remove a file id's entries from an association list. -/
def removeF {α : Type} (l : List (FileId × α)) (f : FileId) : List (FileId × α) :=
  l.filter fun p => p.1 != f

/-- Modelled from the spec: the memo table of the database (spec section
4.5).  Each non-transparent query has a slot; the transparent queries
(ast, syntax_errors, recursion_reached, tokens_reached, is_subtype) "do
not allocate new cache slots". -/
structure Cache where
  cstC : List (FileId × SyntaxTree)
  aprC : List (FileId × ParseResult)
  schemaC : Option Schema
  execC : List (FileId × Except TypeError ExecutableDocument)
  implC : Option (List (String × List String))

/-- The empty memo table. -/
def Cache.empty : Cache := Cache.mk [] [] none [] none

/-- A database state: the inputs and the memo table. -/
structure DBState where
  inputs : DBInputs
  cache : Cache

/-- Modelled from the spec: evaluation of the cst query (spec section 4.5
evaluation contract): a cache hit returns the cached value, a miss computes
and stores. -/
def runCst (st : DBState) (f : FileId) : SyntaxTree × DBState :=
  match lookupF st.cache.cstC f with
  | some v => (v, st)
  | none =>
    let v := cstFn st.inputs f
    (v, DBState.mk st.inputs
      (Cache.mk ((f, v) :: st.cache.cstC) st.cache.aprC st.cache.schemaC st.cache.execC
        st.cache.implC))

/-- Modelled from the spec: evaluation of ast_parse_result, reading the cst
query (repr.rs lines 90-132) and caching its own result. -/
def runApr (st : DBState) (f : FileId) : ParseResult × DBState :=
  match lookupF st.cache.aprC f with
  | some v => (v, st)
  | none =>
    let r := runCst st f
    let v := ParseResult.mk (from_cst r.1.document) (r.1.errors.map (toDiagnostic f))
      r.1.recursionHigh r.1.tokensHigh
    (v, DBState.mk r.2.inputs
      (Cache.mk r.2.cache.cstC ((f, v) :: r.2.cache.aprC) r.2.cache.schemaC r.2.cache.execC
        r.2.cache.implC))

/-- Evaluation of the transparent ast query: a projection of
ast_parse_result with no slot of its own (repr.rs lines 134-136). -/
def runAst (st : DBState) (f : FileId) : Document × DBState :=
  let r := runApr st f
  (r.1.document, r.2)

/-- Evaluation of the transparent syntax_errors query (repr.rs 138-140). -/
def runSyn (st : DBState) (f : FileId) : List ApolloDiagnostic × DBState :=
  let r := runApr st f
  (r.1.syntax_errors, r.2)

/-- Evaluation of the transparent recursion_reached query (repr.rs
142-144). -/
def runRec (st : DBState) (f : FileId) : Nat × DBState :=
  let r := runApr st f
  (r.1.recursion_reached, r.2)

/-- Evaluation of the transparent tokens_reached query (repr.rs 146-148). -/
def runTok (st : DBState) (f : FileId) : Nat × DBState :=
  let r := runApr st f
  (r.1.tokens_reached, r.2)

/-- Run the ast query over a list of files, threading the state. -/
def runAstList : DBState → List FileId → List Document × DBState
  | st, [] => ([], st)
  | st, f :: fs =>
    let r := runAst st f
    let r2 := runAstList r.2 fs
    (r.1 :: r2.1, r2.2)

/-- Modelled from the spec: evaluation of the schema query (repr.rs lines
150-157), reading the asts of the type-definition files and caching the
Schema component of the build. -/
def runSchema (st : DBState) : Schema × DBState :=
  match st.cache.schemaC with
  | some v => (v, st)
  | none =>
    let r := runAstList st st.inputs.type_definition_files
    let v := (buildSchema r.1).1
    (v, DBState.mk r.2.inputs
      (Cache.mk r.2.cache.cstC r.2.cache.aprC (some v) r.2.cache.execC r.2.cache.implC))

/-- Modelled from the spec: evaluation of executable_document (repr.rs
lines 159-164), reading the schema and ast queries. -/
def runExec (st : DBState) (f : FileId) :
    Except TypeError ExecutableDocument × DBState :=
  match lookupF st.cache.execC f with
  | some v => (v, st)
  | none =>
    let rs := runSchema st
    let ra := runAst rs.2 f
    let v := from_ast rs.1 ra.1
    (v, DBState.mk ra.2.inputs
      (Cache.mk ra.2.cache.cstC ra.2.cache.aprC ra.2.cache.schemaC ((f, v) :: ra.2.cache.execC)
        ra.2.cache.implC))

/-- Modelled from the spec: evaluation of implementers_map (repr.rs lines
166-168), reading the schema query. -/
def runImpl (st : DBState) : List (String × List String) × DBState :=
  match st.cache.implC with
  | some v => (v, st)
  | none =>
    let rs := runSchema st
    let v := Schema.implementers_map rs.1
    (v, DBState.mk rs.2.inputs
      (Cache.mk rs.2.cache.cstC rs.2.cache.aprC rs.2.cache.schemaC rs.2.cache.execC (some v)))

/-- Evaluation of the transparent is_subtype query (repr.rs lines 170-173),
reading the schema and implementers_map queries. -/
def runIsSub (st : DBState) (a m : String) : Bool × DBState :=
  let rs := runSchema st
  let ri := runImpl rs.2
  (Schema.is_subtype rs.1 ri.1 a m, ri.2)

/-- The derived queries of spec section 4.5. -/
inductive Query where
  | cstQ (f : FileId)
  | aprQ (f : FileId)
  | astQ (f : FileId)
  | synQ (f : FileId)
  | recQ (f : FileId)
  | tokQ (f : FileId)
  | schemaQ
  | execQ (f : FileId)
  | implQ
  | isSubQ (a m : String)

/-- The value returned by a query. -/
inductive QVal where
  | tree (t : SyntaxTree)
  | pres (p : ParseResult)
  | doc (d : Document)
  | diags (l : List ApolloDiagnostic)
  | num (n : Nat)
  | sch (s : Schema)
  | exec (e : Except TypeError ExecutableDocument)
  | impl (m : List (String × List String))
  | boolV (b : Bool)

/-- Dispatch a query against the memoizing database. -/
def runQuery (st : DBState) : Query → QVal × DBState
  | Query.cstQ f => let r := runCst st f; (QVal.tree r.1, r.2)
  | Query.aprQ f => let r := runApr st f; (QVal.pres r.1, r.2)
  | Query.astQ f => let r := runAst st f; (QVal.doc r.1, r.2)
  | Query.synQ f => let r := runSyn st f; (QVal.diags r.1, r.2)
  | Query.recQ f => let r := runRec st f; (QVal.num r.1, r.2)
  | Query.tokQ f => let r := runTok st f; (QVal.num r.1, r.2)
  | Query.schemaQ => let r := runSchema st; (QVal.sch r.1, r.2)
  | Query.execQ f => let r := runExec st f; (QVal.exec r.1, r.2)
  | Query.implQ => let r := runImpl st; (QVal.impl r.1, r.2)
  | Query.isSubQ a m => let r := runIsSub st a m; (QVal.boolV r.1, r.2)

/-- The value a query computes from scratch against the inputs alone,
with no cache involved: the composition of the repr.rs query functions. -/
def fromScratch (i : DBInputs) : Query → QVal
  | Query.cstQ f => QVal.tree (cstFn i f)
  | Query.aprQ f => QVal.pres (ast_parse_resultFn i f)
  | Query.astQ f => QVal.doc (astFn i f)
  | Query.synQ f => QVal.diags (syntax_errorsFn i f)
  | Query.recQ f => QVal.num (recursion_reachedFn i f)
  | Query.tokQ f => QVal.num (tokens_reachedFn i f)
  | Query.schemaQ => QVal.sch (schemaFn i)
  | Query.execQ f => QVal.exec (executable_documentFn i f)
  | Query.implQ => QVal.impl (implementers_mapFn i)
  | Query.isSubQ a m => QVal.boolV (is_subtypeFn i a m)

/-- The input mutations of the external interface (spec section 6). -/
inductive Mutation where
  | set_source_code (f : FileId) (text : String)
  | set_file_kind (f : FileId) (k : FileKind)
  | set_type_definition_files (l : List FileId)
  | set_recursion_limit (n : Option Nat)
  | set_token_limit (n : Option Nat)

/-- Apply a mutation to the inputs. -/
def setInput (i : DBInputs) : Mutation → DBInputs
  | Mutation.set_source_code f text =>
    DBInputs.mk (fun g => if g = f then text else i.source_code g) i.file_kind
      i.type_definition_files i.recursion_limit i.token_limit
  | Mutation.set_file_kind f k =>
    DBInputs.mk i.source_code (fun g => if g = f then k else i.file_kind g)
      i.type_definition_files i.recursion_limit i.token_limit
  | Mutation.set_type_definition_files l =>
    DBInputs.mk i.source_code i.file_kind l i.recursion_limit i.token_limit
  | Mutation.set_recursion_limit n =>
    DBInputs.mk i.source_code i.file_kind i.type_definition_files n i.token_limit
  | Mutation.set_token_limit n =>
    DBInputs.mk i.source_code i.file_kind i.type_definition_files i.recursion_limit n

/-- Modelled from the spec: invalidation on an input change (spec section
4.5: "when an input changes, only queries that transitively read it are
invalidated; all others remain valid").  A source change drops the file's
parse entries and everything downstream of the schema; the file kind is
read by no derived query; changing the file set drops the schema and its
dependents; a limit change drops every parse and its dependents. -/
def invalidate (c : Cache) : Mutation → Cache
  | Mutation.set_source_code f _ =>
    Cache.mk (removeF c.cstC f) (removeF c.aprC f) none [] none
  | Mutation.set_file_kind _ _ => c
  | Mutation.set_type_definition_files _ => Cache.mk c.cstC c.aprC none [] none
  | Mutation.set_recursion_limit _ => Cache.empty
  | Mutation.set_token_limit _ => Cache.empty

/-- Apply a mutation to the database state. -/
def applyMutation (st : DBState) (m : Mutation) : DBState :=
  DBState.mk (setInput st.inputs m) (invalidate st.cache m)

/-- One step of database use: a mutation or a query. -/
inductive DBOp where
  | mutOp (m : Mutation)
  | queryOp (q : Query)

/-- Step the state by one operation (a query's value is returned to the
caller; only its state effect matters here). -/
def stepOp (st : DBState) : DBOp → DBState
  | DBOp.mutOp m => applyMutation st m
  | DBOp.queryOp q => (runQuery st q).2

/-- Run a sequence of operations. -/
def runOps (st : DBState) (ops : List DBOp) : DBState := ops.foldl stepOp st

/-- Modelled from the spec: a freshly constructed empty database (spec
section 6): no files, no limits, empty cache; unset sources read as the
empty string. -/
def initState : DBState :=
  DBState.mk
    (DBInputs.mk (fun _ => "") (fun _ => FileKind.executableFile) [] none none)
    Cache.empty

/-- A concrete database input used in witnesses: one schema file whose
whole content is an orphan union extension (its target type is defined
nowhere). -/
def orphanOnlyInputs : DBInputs :=
  DBInputs.mk (fun g => if g = 0 then "extend union Q = A" else "")
    (fun _ => FileKind.schemaFile) [0] none none

/-- The cache-correctness invariant: every cached entry equals the value
its query computes from scratch against the current inputs. -/
def goodCache (i : DBInputs) (c : Cache) : Prop :=
  (∀ f v, lookupF c.cstC f = some v → v = cstFn i f) ∧
  (∀ f v, lookupF c.aprC f = some v → v = ast_parse_resultFn i f) ∧
  (∀ v, c.schemaC = some v → v = schemaFn i) ∧
  (∀ f v, lookupF c.execC f = some v → v = executable_documentFn i f) ∧
  (∀ v, c.implC = some v → v = implementers_mapFn i)

/-! Lemmas about tokens, peeking and the parser primitives. -/

theorem sig_dropWhile (ts : List Token) :
    sigTokens (ts.dropWhile isTriviaTok) = sigTokens ts := by
  induction ts with
  | nil => rfl
  | cons t ts ih =>
    by_cases h : isTriviaTok t = true
    · rw [List.dropWhile_cons_of_pos h, ih]
      simp [sigTokens, List.filter_cons, h]
    · rw [List.dropWhile_cons_of_neg h]

theorem dropWhile_head_nontrivia {ts r : List Token} {t : Token}
    (h : ts.dropWhile isTriviaTok = t :: r) : isTriviaTok t = false := by
  induction ts with
  | nil => simp [List.dropWhile] at h
  | cons a ts ih =>
    by_cases ha : isTriviaTok a = true
    · rw [List.dropWhile_cons_of_pos ha] at h
      exact ih h
    · rw [List.dropWhile_cons_of_neg ha] at h
      cases h
      simpa using ha

theorem sig_of_dropWhile_cons {ts r : List Token} {t : Token}
    (h : ts.dropWhile isTriviaTok = t :: r) :
    sigTokens ts = t :: sigTokens r := by
  have h2 := sig_dropWhile ts
  rw [h] at h2
  rw [← h2]
  simp [sigTokens, List.filter_cons, dropWhile_head_nontrivia h]

theorem sig_of_dropWhile_nil {ts : List Token}
    (h : ts.dropWhile isTriviaTok = []) : sigTokens ts = [] := by
  have h2 := sig_dropWhile ts
  rw [h] at h2
  exact h2.symm

theorem peekTok_eq_sig_head (s : PState) :
    peekTok s = (sigTokens s.tokens).head? := by
  unfold peekTok
  cases h : s.tokens.dropWhile isTriviaTok with
  | nil => rw [sig_of_dropWhile_nil h]
  | cons t r => rw [sig_of_dropWhile_cons h]; simp

theorem errP_errors (m : String) (s : PState) :
    (errP m s).errors = s.errors ++ [PError.mk m ((peekData s).getD "EOF") 0 false] := rfl

theorem errP_tokens (m : String) (s : PState) : (errP m s).tokens = s.tokens := rfl

theorem bumpP_errors (k : SyntaxKind) (s : PState) : (bumpP k s).2.errors = s.errors := by
  unfold bumpP
  cases s.tokens.dropWhile isTriviaTok with
  | nil => rfl
  | cons t r => rfl

theorem bumpP_tokens_sig {s : PState} {t : Token} (k : SyntaxKind)
    (h : peekTok s = some t) :
    sigTokens (bumpP k s).2.tokens = (sigTokens s.tokens).tail := by
  unfold peekTok at h
  cases hd : s.tokens.dropWhile isTriviaTok with
  | nil => rw [hd] at h; simp at h
  | cons t2 r =>
    rw [hd] at h
    unfold bumpP
    rw [hd]
    simp only []
    rw [sig_dropWhile r, sig_of_dropWhile_cons hd]
    simp

theorem length_dropWhile_le_self (p : Token → Bool) (l : List Token) :
    (l.dropWhile p).length ≤ l.length := by
  induction l with
  | nil => simp [List.dropWhile]
  | cons t ts ih =>
    by_cases h : p t = true
    · rw [List.dropWhile_cons_of_pos h]
      simp only [List.length_cons]
      omega
    · rw [List.dropWhile_cons_of_neg h]

theorem bumpP_tokens_len {s : PState} {t : Token} (k : SyntaxKind)
    (h : peekTok s = some t) :
    (bumpP k s).2.tokens.length < s.tokens.length := by
  unfold peekTok at h
  cases hd : s.tokens.dropWhile isTriviaTok with
  | nil => rw [hd] at h; simp at h
  | cons t2 r =>
    unfold bumpP
    rw [hd]
    simp only []
    have h1 : (r.dropWhile isTriviaTok).length ≤ r.length :=
      length_dropWhile_le_self isTriviaTok r
    have h2 : s.tokens.takeWhile isTriviaTok ++ s.tokens.dropWhile isTriviaTok = s.tokens :=
      s.tokens.takeWhile_append_dropWhile isTriviaTok
    have h3 : s.tokens.length =
        (s.tokens.takeWhile isTriviaTok).length + (t2 :: r).length := by
      rw [← hd, ← List.length_append, h2]
    simp only [List.length_cons] at h3
    omega

theorem peekTok_of_kind {s : PState} {k : TokenKind} (h : peekKind s = some k) :
    ∃ t, peekTok s = some t ∧ t.kind = k := by
  unfold peekKind at h
  cases hp : peekTok s with
  | none => rw [hp] at h; simp at h
  | some t =>
    rw [hp] at h
    simp at h
    exact ⟨t, rfl, h⟩

theorem peekData_isSome_iff (s : PState) :
    (peekData s).isSome = true ↔ sigTokens s.tokens ≠ [] := by
  unfold peekData
  rw [peekTok_eq_sig_head]
  cases sigTokens s.tokens with
  | nil => simp
  | cons t r => simp

theorem countMsg_append (m : String) (a b : List PError) :
    countMsg m (a ++ b) = countMsg m a + countMsg m b := by
  simp [countMsg, List.filter_append]

theorem countMsg_all_ne {m : String} {l : List PError}
    (h : ∀ e ∈ l, ¬e.message = m) : countMsg m l = 0 := by
  unfold countMsg
  rw [List.filter_eq_nil_iff.mpr]
  · rfl
  · intro e he
    simpa using h e he

theorem countMsg_singleton_eq {m : String} {e : PError} (h : e.message = m) :
    countMsg m [e] = 1 := by
  simp [countMsg, List.filter_cons, h]

/-! Case-analysis helpers for the grammar functions. -/

theorem nameG_cases (s : PState) :
    (peekKind s = some TokenKind.name ∧
      nameG s = ([CST.node SyntaxKind.NAME (bumpP SyntaxKind.IDENT s).1],
        (bumpP SyntaxKind.IDENT s).2)) ∨
    (¬peekKind s = some TokenKind.name ∧ nameG s = ([], errP "expected a Name" s)) := by
  unfold nameG
  cases h : peekKind s with
  | none => right; exact ⟨by simp, rfl⟩
  | some k =>
    cases k <;> first
      | (left; exact ⟨rfl, rfl⟩)
      | (right; exact ⟨by simp, rfl⟩)

theorem nameG_errors (s : PState) :
    ∃ l, (nameG s).2.errors = s.errors ++ l ∧ ∀ e ∈ l, e.message = "expected a Name" := by
  rcases nameG_cases s with ⟨_, h2⟩ | ⟨_, h2⟩
  · exact ⟨[], by rw [h2]; simp [bumpP_errors], by simp⟩
  · refine ⟨[PError.mk "expected a Name" ((peekData s).getD "EOF") 0 false], ?_, ?_⟩
    · rw [h2]; rfl
    · intro e he
      rw [List.mem_singleton] at he
      subst he; rfl

theorem nameG_errors_of_name {s : PState} (h : peekKind s = some TokenKind.name) :
    (nameG s).2.errors = s.errors := by
  rcases nameG_cases s with ⟨_, h2⟩ | ⟨h1, _⟩
  · rw [h2]; exact bumpP_errors _ s
  · exact absurd h h1

theorem named_type_snd (s : PState) : (named_type s).2 = (nameG s).2 := rfl

theorem directiveG_snd (s : PState) :
    (directiveG s).2 = (nameG (bumpP SyntaxKind.AT s).2).2 := rfl

theorem directiveG_errors (s : PState) :
    ∃ l, (directiveG s).2.errors = s.errors ++ l ∧
      ∀ e ∈ l, e.message = "expected a Name" := by
  obtain ⟨l, hl, hm⟩ := nameG_errors (bumpP SyntaxKind.AT s).2
  refine ⟨l, ?_, hm⟩
  rw [directiveG_snd, hl, bumpP_errors]

theorem directivesLoop_succ_at (fuel : Nat) (s : PState)
    (h : peekKind s = some TokenKind.at_) :
    directivesLoop (fuel + 1) s =
      ((directiveG s).1 ++ (directivesLoop fuel (directiveG s).2).1,
       (directivesLoop fuel (directiveG s).2).2) := by
  simp only [directivesLoop]
  rw [h]

theorem directivesLoop_succ_not (fuel : Nat) (s : PState)
    (h : ¬peekKind s = some TokenKind.at_) :
    directivesLoop (fuel + 1) s = ([], s) := by
  simp only [directivesLoop]

theorem directivesLoop_errors (fuel : Nat) :
    ∀ s : PState, ∃ l, (directivesLoop fuel s).2.errors = s.errors ++ l ∧
      ∀ e ∈ l, e.message = "expected a Name" := by
  induction fuel with
  | zero => intro s; exact ⟨[], by simp [directivesLoop], by simp⟩
  | succ fuel ih =>
    intro s
    by_cases h : peekKind s = some TokenKind.at_
    · rw [directivesLoop_succ_at fuel s h]
      obtain ⟨l1, hl1, hm1⟩ := directiveG_errors s
      obtain ⟨l2, hl2, hm2⟩ := ih (directiveG s).2
      refine ⟨l1 ++ l2, ?_, ?_⟩
      · simp only []
        rw [hl2, hl1, List.append_assoc]
      · intro e he
        rcases List.mem_append.mp he with h1 | h2
        · exact hm1 e h1
        · exact hm2 e h2
    · rw [directivesLoop_succ_not fuel s h]
      exact ⟨[], by simp, by simp⟩

theorem directivesG_errors (s : PState) :
    ∃ l, (directivesG s).2.errors = s.errors ++ l ∧
      ∀ e ∈ l, e.message = "expected a Name" := by
  obtain ⟨l, hl, hm⟩ := directivesLoop_errors s.tokens.length s
  exact ⟨l, hl, hm⟩

theorem umt_succ_pipe (fuel : Nat) (b : Bool) (s : PState)
    (h : peekKind s = some TokenKind.pipe) :
    union_member_type (fuel + 1) b s =
      ((bumpP SyntaxKind.PIPE s).1 ++
         (union_member_type fuel b (bumpP SyntaxKind.PIPE s).2).1,
       (union_member_type fuel b (bumpP SyntaxKind.PIPE s).2).2) := by
  simp only [union_member_type]
  rw [h]

theorem umt_succ_name (fuel : Nat) (b : Bool) (s : PState)
    (h : peekKind s = some TokenKind.name) :
    union_member_type (fuel + 1) b s =
      (if (peekData (named_type s).2).isSome then
        ((named_type s).1 ++ (union_member_type fuel true (named_type s).2).1,
         (union_member_type fuel true (named_type s).2).2)
       else named_type s) := by
  simp only [union_member_type]
  rw [h]

theorem umt_succ_other (fuel : Nat) (b : Bool) (s : PState)
    (h1 : ¬peekKind s = some TokenKind.pipe) (h2 : ¬peekKind s = some TokenKind.name) :
    union_member_type (fuel + 1) b s =
      ([], if b then s else errP "expected Union Member Types" s) := by
  simp only [union_member_type]

theorem named_type_errors_of_name {s : PState} (h : peekKind s = some TokenKind.name) :
    (named_type s).2.errors = s.errors := by
  rw [named_type_snd]
  exact nameG_errors_of_name h

theorem umt_errors_only (fuel : Nat) :
    ∀ (b : Bool) (s : PState), ∃ l, (union_member_type fuel b s).2.errors = s.errors ++ l ∧
      ∀ e ∈ l, e.message = "expected Union Member Types" := by
  induction fuel with
  | zero => intro b s; exact ⟨[], by simp [union_member_type], by simp⟩
  | succ fuel ih =>
    intro b s
    by_cases hp : peekKind s = some TokenKind.pipe
    · rw [umt_succ_pipe fuel b s hp]
      obtain ⟨l, hl, hm⟩ := ih b (bumpP SyntaxKind.PIPE s).2
      exact ⟨l, by simp only []; rw [hl, bumpP_errors], hm⟩
    · by_cases hn : peekKind s = some TokenKind.name
      · rw [umt_succ_name fuel b s hn]
        by_cases hs : (peekData (named_type s).2).isSome = true
        · rw [if_pos hs]
          obtain ⟨l, hl, hm⟩ := ih true (named_type s).2
          exact ⟨l, by simp only []; rw [hl, named_type_errors_of_name hn], hm⟩
        · rw [if_neg hs]
          exact ⟨[], by rw [named_type_errors_of_name hn]; simp, by simp⟩
      · rw [umt_succ_other fuel b s hp hn]
        cases b with
        | true => exact ⟨[], by simp, by simp⟩
        | false =>
          refine ⟨[PError.mk "expected Union Member Types" ((peekData s).getD "EOF") 0 false],
            ?_, ?_⟩
          · simp only [Bool.false_eq_true, if_neg]
            rfl
          · intro e he
            rw [List.mem_singleton] at he
            subst he; rfl

theorem umt_true_errors (fuel : Nat) :
    ∀ s : PState, (union_member_type fuel true s).2.errors = s.errors := by
  induction fuel with
  | zero => intro s; simp [union_member_type]
  | succ fuel ih =>
    intro s
    by_cases hp : peekKind s = some TokenKind.pipe
    · rw [umt_succ_pipe fuel true s hp]
      simp only []
      rw [ih (bumpP SyntaxKind.PIPE s).2, bumpP_errors]
    · by_cases hn : peekKind s = some TokenKind.name
      · rw [umt_succ_name fuel true s hn]
        by_cases hs : (peekData (named_type s).2).isSome = true
        · rw [if_pos hs]
          simp only []
          rw [ih (named_type s).2, named_type_errors_of_name hn]
        · rw [if_neg hs]
          exact named_type_errors_of_name hn
      · rw [umt_succ_other fuel true s hp hn]
        simp

theorem peek_sig_cons {s : PState} {t : Token} (hpt : peekTok s = some t) :
    ∃ r, sigTokens s.tokens = t :: r := by
  have hsig := peekTok_eq_sig_head s
  rw [hpt] at hsig
  cases hst : sigTokens s.tokens with
  | nil => rw [hst] at hsig; simp at hsig
  | cons a r =>
    rw [hst] at hsig
    simp only [List.head?_cons] at hsig
    have hta : t = a := Option.some.inj hsig
    refine ⟨r, ?_⟩
    rw [hta]

theorem peek_sig_nil {s : PState} (hpt : peekTok s = none) :
    sigTokens s.tokens = [] := by
  have hsig := peekTok_eq_sig_head s
  rw [hpt] at hsig
  cases hst : sigTokens s.tokens with
  | nil => rfl
  | cons a r => rw [hst] at hsig; simp at hsig

theorem peekKind_ne_kind {s : PState} {t : Token} {k : TokenKind}
    (hpt : peekTok s = some t) (h : ¬peekKind s = some k) : ¬t.kind = k := by
  intro hk
  apply h
  unfold peekKind
  rw [hpt]
  simp [hk]

theorem umt_false_count (fuel : Nat) :
    ∀ s : PState, s.tokens.length < fuel →
      countMsg "expected Union Member Types" (union_member_type fuel false s).2.errors =
        countMsg "expected Union Member Types" s.errors +
          (if ((sigTokens s.tokens).dropWhile isPipeTok).head?.map Token.kind
              = some TokenKind.name then 0 else 1) := by
  induction fuel with
  | zero => intro s h; omega
  | succ fuel ih =>
    intro s h
    by_cases hp : peekKind s = some TokenKind.pipe
    · rw [umt_succ_pipe fuel false s hp]
      obtain ⟨t, hpt, hkind⟩ := peekTok_of_kind hp
      obtain ⟨r, hst⟩ := peek_sig_cons hpt
      have hlen : (bumpP SyntaxKind.PIPE s).2.tokens.length < fuel := by
        have := bumpP_tokens_len (t := t) SyntaxKind.PIPE hpt
        omega
      have hpipe : isPipeTok t = true := by
        simp only [isPipeTok]
        rw [hkind]
      simp only []
      rw [ih (bumpP SyntaxKind.PIPE s).2 hlen, bumpP_errors,
        bumpP_tokens_sig SyntaxKind.PIPE hpt, hst,
        List.dropWhile_cons_of_pos hpipe]
      simp
    · by_cases hn : peekKind s = some TokenKind.name
      · rw [umt_succ_name fuel false s hn]
        obtain ⟨t, hpt, hkind⟩ := peekTok_of_kind hn
        obtain ⟨r, hst⟩ := peek_sig_cons hpt
        have hnp : isPipeTok t = false := by
          simp only [isPipeTok]
          rw [hkind]
        have hcond : ((sigTokens s.tokens).dropWhile isPipeTok).head?.map Token.kind
            = some TokenKind.name := by
          rw [hst, List.dropWhile_cons_of_neg (by simp [hnp])]
          simp [hkind]
        rw [if_pos hcond]
        by_cases hs : (peekData (named_type s).2).isSome = true
        · rw [if_pos hs]
          simp only []
          rw [umt_true_errors fuel (named_type s).2, named_type_errors_of_name hn]
          omega
        · rw [if_neg hs]
          rw [named_type_errors_of_name hn]
          omega
      · rw [umt_succ_other fuel false s hp hn]
        have hred : (if (false : Bool) = true then s
            else errP "expected Union Member Types" s) =
            errP "expected Union Member Types" s := by simp
        have hcond : ¬((sigTokens s.tokens).dropWhile isPipeTok).head?.map Token.kind
            = some TokenKind.name := by
          cases hpt : peekTok s with
          | none =>
            rw [peek_sig_nil hpt]
            simp
          | some t =>
            obtain ⟨r, hst⟩ := peek_sig_cons hpt
            have hkp := peekKind_ne_kind hpt hp
            have hkn := peekKind_ne_kind hpt hn
            have hnp : isPipeTok t = false := by
              simp only [isPipeTok]
            rw [hst, List.dropWhile_cons_of_neg (by simp [hnp])]
            simp only [List.head?_cons, Option.map_some]
            intro hcontr
            exact hkn (Option.some.inj hcontr)
        rw [if_neg hcond]
        simp only []
        rw [hred, errP_errors, countMsg_append,
          countMsg_singleton_eq (m := "expected Union Member Types") rfl]

theorem countMsg_through {m : String} {base l : List PError}
    (hl : ∀ e ∈ l, ¬e.message = m) : countMsg m (base ++ l) = countMsg m base := by
  rw [countMsg_append, countMsg_all_ne hl]
  omega

theorem union_member_types_snd (s : PState) :
    (union_member_types s).2 =
      (union_member_type ((bumpP SyntaxKind.EQ s).2.tokens.length + 1) false
        (bumpP SyntaxKind.EQ s).2).2 := rfl

theorem union_member_types_errors (s : PState) :
    ∃ l, (union_member_types s).2.errors = s.errors ++ l ∧
      ∀ e ∈ l, e.message = "expected Union Member Types" := by
  obtain ⟨l, hl, hm⟩ := umt_errors_only ((bumpP SyntaxKind.EQ s).2.tokens.length + 1) false
    (bumpP SyntaxKind.EQ s).2
  refine ⟨l, ?_, hm⟩
  rw [union_member_types_snd, hl, bumpP_errors]

theorem nameOrErr_snd (s : PState) : (nameOrErr s).2 = (nameG s).2 := by
  unfold nameOrErr nameG
  cases h : peekKind s with
  | none => rfl
  | some k => cases k <;> rfl

theorem ute_start_snd (s : PState) :
    (ute_start s).2 =
      (nameOrErr (bumpP SyntaxKind.union_KW (bumpP SyntaxKind.extend_KW s).2).2).2 := rfl

theorem ute_start_errors (s : PState) :
    ∃ l, (ute_start s).2.errors = s.errors ++ l ∧
      ∀ e ∈ l, e.message = "expected a Name" := by
  obtain ⟨l, hl, hm⟩ :=
    nameG_errors (bumpP SyntaxKind.union_KW (bumpP SyntaxKind.extend_KW s).2).2
  refine ⟨l, ?_, hm⟩
  rw [ute_start_snd, nameOrErr_snd, hl, bumpP_errors, bumpP_errors]

theorem ute_dirs_errors (s : PState) :
    ∃ l, (ute_dirs s).2.errors = s.errors ++ l ∧
      ∀ e ∈ l, e.message = "expected a Name" := by
  unfold ute_dirs
  by_cases h : peekKind s = some TokenKind.at_
  · rw [if_pos h]
    exact directivesG_errors s
  · rw [if_neg h]
    exact ⟨[], by simp, by simp⟩

theorem union_type_extension_snd (s : PState) :
    (union_type_extension s).2 =
      (if ((decide (peekKind (ute_start s).2 = some TokenKind.at_)) ||
           (decide (peekKind (ute_dirs (ute_start s).2).2 = some TokenKind.eq))) = true
       then (if peekKind (ute_dirs (ute_start s).2).2 = some TokenKind.eq
             then union_member_types (ute_dirs (ute_start s).2).2
             else ([], (ute_dirs (ute_start s).2).2)).2
       else errP "expected Directives or Union Member Types"
         (if peekKind (ute_dirs (ute_start s).2).2 = some TokenKind.eq
          then union_member_types (ute_dirs (ute_start s).2).2
          else ([], (ute_dirs (ute_start s).2).2)).2) := rfl

/-- C5: union_type_extension emits "expected Directives or Union Member
Types" exactly once when neither the directives condition (token `@` after
the Name position) nor the member-types condition (token `=` after the
directives phase) held, and emits no such error when either one held: the
count of that message grows by one in the first case and is unchanged in
the second, whatever errors the sub-phases add. -/
theorem claim_c5_extension_requirements_error (s : PState) :
    countMsg "expected Directives or Union Member Types" (union_type_extension s).2.errors =
      countMsg "expected Directives or Union Member Types" s.errors +
        (if peekKind (ute_start s).2 = some TokenKind.at_ ∨
            peekKind (ute_dirs (ute_start s).2).2 = some TokenKind.eq then 0 else 1) := by
  obtain ⟨l1, hl1, hm1⟩ := ute_start_errors s
  obtain ⟨l2, hl2, hm2⟩ := ute_dirs_errors (ute_start s).2
  have hne1 : ∀ e ∈ l1, ¬e.message = "expected Directives or Union Member Types" := by
    intro e he
    rw [hm1 e he]
    decide
  have hne2 : ∀ e ∈ l2, ¬e.message = "expected Directives or Union Member Types" := by
    intro e he
    rw [hm2 e he]
    decide
  have hcnt : countMsg "expected Directives or Union Member Types"
      (if peekKind (ute_dirs (ute_start s).2).2 = some TokenKind.eq
       then union_member_types (ute_dirs (ute_start s).2).2
       else ([], (ute_dirs (ute_start s).2).2)).2.errors =
      countMsg "expected Directives or Union Member Types" s.errors := by
    by_cases heq : peekKind (ute_dirs (ute_start s).2).2 = some TokenKind.eq
    · rw [if_pos heq]
      obtain ⟨l3, hl3, hm3⟩ := union_member_types_errors (ute_dirs (ute_start s).2).2
      have hne3 : ∀ e ∈ l3, ¬e.message = "expected Directives or Union Member Types" := by
        intro e he
        rw [hm3 e he]
        decide
      rw [hl3, hl2, hl1, countMsg_through hne3, countMsg_through hne2, countMsg_through hne1]
    · rw [if_neg heq]
      simp only []
      rw [hl2, hl1, countMsg_through hne2, countMsg_through hne1]
  rw [union_type_extension_snd s]
  simp only [Bool.or_eq_true, decide_eq_true_eq]
  by_cases hor : peekKind (ute_start s).2 = some TokenKind.at_ ∨
      peekKind (ute_dirs (ute_start s).2).2 = some TokenKind.eq
  · rw [if_pos hor, if_pos hor, hcnt]
    omega
  · rw [if_neg hor, if_neg hor, errP_errors, countMsg_append,
      countMsg_singleton_eq (m := "expected Directives or Union Member Types") rfl, hcnt]

/-- C6: in a member list, "expected Union Member Types" is emitted exactly
when the significant tokens after the `=` bump, leading pipes dropped, do
not begin with a Name token (so in particular at most once per list), and
once a member has been parsed (the is_union flag) the member-type loop
emits no error at all: trailing or repeated pipes are consumed silently. -/
theorem claim_c6_member_types_error_exactly_when :
    (∀ s : PState,
      countMsg "expected Union Member Types" (union_member_types s).2.errors =
        countMsg "expected Union Member Types" s.errors +
          (if ((sigTokens (bumpP SyntaxKind.EQ s).2.tokens).dropWhile isPipeTok).head?.map
              Token.kind = some TokenKind.name then 0 else 1)) ∧
    (∀ (fuel : Nat) (s : PState), (union_member_type fuel true s).2.errors = s.errors) := by
  constructor
  · intro s
    have h2 := umt_false_count ((bumpP SyntaxKind.EQ s).2.tokens.length + 1)
      (bumpP SyntaxKind.EQ s).2 (Nat.lt_succ_self _)
    rw [union_member_types_snd, h2, bumpP_errors]
  · intro fuel s
    exact umt_true_errors fuel s

theorem nameOrErr_eq (s : PState) : nameOrErr s = nameG s := by
  unfold nameOrErr nameG
  cases h : peekKind s with
  | none => rfl
  | some k => cases k <;> rfl

theorem peekTok_of_data {s : PState} {d : String} (h : peekData s = some d) :
    ∃ t, peekTok s = some t ∧ t.data = d := by
  unfold peekData at h
  cases hp : peekTok s with
  | none => rw [hp] at h; simp at h
  | some t =>
    rw [hp] at h
    simp at h
    exact ⟨t, rfl, h⟩

theorem bumpP_fst_mem {s : PState} {t : Token} (k : SyntaxKind) (h : peekTok s = some t) :
    CST.leaf k t ∈ (bumpP k s).1 := by
  unfold peekTok at h
  cases hd : s.tokens.dropWhile isTriviaTok with
  | nil => rw [hd] at h; simp at h
  | cons a r =>
    rw [hd] at h
    simp only [List.head?_cons] at h
    have hat : a = t := Option.some.inj h
    unfold bumpP
    rw [hd]
    simp [hat]

theorem any_leaf_false {k : SyntaxKind} {l : List CST}
    (h : ∀ c ∈ l, ∃ kk cs, c = CST.node kk cs) :
    (l.any fun ch =>
      match ch with
      | CST.leaf k2 _ => decide (k2 = k)
      | _ => false) = false := by
  rw [List.any_eq_false]
  intro x hx
  obtain ⟨kk, cs, hx2⟩ := h x hx
  rw [hx2]
  simp

theorem utd_desc_nodes (s : PState) :
    ∀ c ∈ (utd_desc s).1, ∃ kk cs, c = CST.node kk cs := by
  unfold utd_desc
  by_cases h : peekKind s = some TokenKind.stringValue
  · rw [if_pos h]
    intro c hc
    rw [show (descriptionG s).1 = [CST.node SyntaxKind.DESCRIPTION (bumpP SyntaxKind.STRING_VALUE s).1] from rfl] at hc
    rw [List.mem_singleton] at hc
    exact ⟨_, _, hc⟩
  · rw [if_neg h]
    intro c hc
    simp at hc

theorem utd_tail_nodes (s : PState) :
    ∀ c ∈ (utd_tail s).1, ∃ kk cs, c = CST.node kk cs := by
  intro c hc
  have hdef : (utd_tail s).1 =
      (nameOrErr s).1 ++
        (if peekKind (nameOrErr s).2 = some TokenKind.at_ then directivesG (nameOrErr s).2
         else ([], (nameOrErr s).2)).1 ++
        (if peekKind (if peekKind (nameOrErr s).2 = some TokenKind.at_
              then directivesG (nameOrErr s).2
              else ([], (nameOrErr s).2)).2 = some TokenKind.eq
         then union_member_types (if peekKind (nameOrErr s).2 = some TokenKind.at_
              then directivesG (nameOrErr s).2
              else ([], (nameOrErr s).2)).2
         else ([], (if peekKind (nameOrErr s).2 = some TokenKind.at_
              then directivesG (nameOrErr s).2
              else ([], (nameOrErr s).2)).2)).1 := rfl
  rw [hdef] at hc
  rcases List.mem_append.mp hc with hc1 | hcm
  · rcases List.mem_append.mp hc1 with hcn | hcd
    · rw [nameOrErr_eq] at hcn
      rcases nameG_cases s with ⟨_, h2⟩ | ⟨_, h2⟩
      · rw [h2] at hcn
        rw [List.mem_singleton] at hcn
        exact ⟨_, _, hcn⟩
      · rw [h2] at hcn
        simp at hcn
    · by_cases hat : peekKind (nameOrErr s).2 = some TokenKind.at_
      · rw [if_pos hat] at hcd
        rw [show (directivesG (nameOrErr s).2).1 =
            [CST.node SyntaxKind.DIRECTIVES
              (directivesLoop (nameOrErr s).2.tokens.length (nameOrErr s).2).1] from rfl] at hcd
        rw [List.mem_singleton] at hcd
        exact ⟨_, _, hcd⟩
      · rw [if_neg hat] at hcd
        simp at hcd
  · by_cases heq : peekKind (if peekKind (nameOrErr s).2 = some TokenKind.at_
        then directivesG (nameOrErr s).2
        else ([], (nameOrErr s).2)).2 = some TokenKind.eq
    · rw [if_pos heq] at hcm
      rw [show ∀ s2 : PState, (union_member_types s2).1 =
          [CST.node SyntaxKind.UNION_MEMBER_TYPES
            ((bumpP SyntaxKind.EQ s2).1 ++
              (union_member_type ((bumpP SyntaxKind.EQ s2).2.tokens.length + 1) false
                (bumpP SyntaxKind.EQ s2).2).1)] from fun s2 => rfl] at hcm
      rw [List.mem_singleton] at hcm
      exact ⟨_, _, hcm⟩
    · rw [if_neg heq] at hcm
      simp at hcm

theorem utd_of_kw {s : PState} (h : peekData (utd_desc s).2 = some "union") :
    union_type_definition s =
      (CST.node SyntaxKind.UNION_TYPE_DEFINITION
        ((utd_desc s).1 ++ (bumpP SyntaxKind.union_KW (utd_desc s).2).1 ++
          (utd_tail (bumpP SyntaxKind.union_KW (utd_desc s).2).2).1),
       (utd_tail (bumpP SyntaxKind.union_KW (utd_desc s).2).2).2) := by
  unfold union_type_definition
  simp only []
  rw [if_pos h]

theorem utd_of_no_kw {s : PState} (h : ¬peekData (utd_desc s).2 = some "union") :
    union_type_definition s =
      (CST.node SyntaxKind.UNION_TYPE_DEFINITION
        ((utd_desc s).1 ++ (utd_tail (utd_desc s).2).1),
       (utd_tail (utd_desc s).2).2) := by
  unfold union_type_definition
  simp only []
  rw [if_neg h]
  simp

/-- C4: on every input state, union_type_definition yields a (single)
UNION_TYPE_DEFINITION node — the node is opened and finished whatever the
tokens are; a union_KW leaf appears among its children exactly when the
token at that position (after the optional description) has text "union";
and when it does not, the parse still proceeds: the result is exactly the
description children followed by the Name / Directives / UnionMemberTypes
tail run on the same state, inside the node. -/
theorem claim_c4_utd_always_node_kw_iff (s : PState) :
    (∃ cs, (union_type_definition s).1 = CST.node SyntaxKind.UNION_TYPE_DEFINITION cs) ∧
    (hasTopLeaf SyntaxKind.union_KW (union_type_definition s).1 = true ↔
      peekData (utd_desc s).2 = some "union") ∧
    (¬peekData (utd_desc s).2 = some "union" →
      union_type_definition s =
        (CST.node SyntaxKind.UNION_TYPE_DEFINITION
          ((utd_desc s).1 ++ (utd_tail (utd_desc s).2).1),
         (utd_tail (utd_desc s).2).2)) := by
  refine ⟨?_, ?_, fun h => utd_of_no_kw h⟩
  · by_cases h : peekData (utd_desc s).2 = some "union"
    · rw [utd_of_kw h]
      exact ⟨_, rfl⟩
    · rw [utd_of_no_kw h]
      exact ⟨_, rfl⟩
  · by_cases h : peekData (utd_desc s).2 = some "union"
    · rw [utd_of_kw h]
      constructor
      · intro _; exact h
      · intro _
        obtain ⟨t, hpt, _⟩ := peekTok_of_data h
        unfold hasTopLeaf
        rw [show CST.childrenOf (CST.node SyntaxKind.UNION_TYPE_DEFINITION
            ((utd_desc s).1 ++ (bumpP SyntaxKind.union_KW (utd_desc s).2).1 ++
              (utd_tail (bumpP SyntaxKind.union_KW (utd_desc s).2).2).1)) =
            (utd_desc s).1 ++ (bumpP SyntaxKind.union_KW (utd_desc s).2).1 ++
              (utd_tail (bumpP SyntaxKind.union_KW (utd_desc s).2).2).1 from rfl]
        rw [List.any_eq_true]
        refine ⟨CST.leaf SyntaxKind.union_KW t, ?_, by simp⟩
        rw [List.mem_append]
        left
        rw [List.mem_append]
        right
        exact bumpP_fst_mem SyntaxKind.union_KW hpt
    · rw [utd_of_no_kw h]
      constructor
      · intro hleaf
        exfalso
        unfold hasTopLeaf at hleaf
        rw [show CST.childrenOf (CST.node SyntaxKind.UNION_TYPE_DEFINITION
            ((utd_desc s).1 ++ (utd_tail (utd_desc s).2).1)) =
            (utd_desc s).1 ++ (utd_tail (utd_desc s).2).1 from rfl] at hleaf
        rw [List.any_append] at hleaf
        rw [any_leaf_false (utd_desc_nodes s), any_leaf_false (utd_tail_nodes _)] at hleaf
        simp at hleaf
      · intro h2
        exact absurd h2 h

/-- C3 (amended): after a NamedType has been parsed in the member-type
loop, parsing of further member types continues exactly when any
significant token remains in the input — whatever line it is on — and
halts only at end of input. -/
theorem claim_c3_member_continue_iff_tokens_remain (fuel : Nat) (b : Bool) (s : PState)
    (h : peekKind s = some TokenKind.name) :
    union_member_type (fuel + 1) b s =
      (if sigTokens (named_type s).2.tokens = [] then named_type s
       else ((named_type s).1 ++ (union_member_type fuel true (named_type s).2).1,
             (union_member_type fuel true (named_type s).2).2)) := by
  rw [umt_succ_name fuel b s h]
  by_cases hnil : sigTokens (named_type s).2.tokens = []
  · rw [if_pos hnil]
    have hsome : ¬(peekData (named_type s).2).isSome = true := by
      rw [peekData_isSome_iff]
      simp [hnil]
    rw [if_neg hsome]
  · rw [if_neg hnil]
    have hsome : (peekData (named_type s).2).isSome = true :=
      (peekData_isSome_iff _).mpr hnil
    rw [if_pos hsome]

/-- C3 witness: the amended continuation rule applied at the concrete
state whose tokens lex "A B": the parse of A continues into B. -/
theorem claim_c3_member_continue_witness :
    union_member_type 3 false (PState.mk (lex "A B") []) =
      (if sigTokens (named_type (PState.mk (lex "A B") [])).2.tokens = []
       then named_type (PState.mk (lex "A B") [])
       else ((named_type (PState.mk (lex "A B") [])).1 ++
               (union_member_type 2 true (named_type (PState.mk (lex "A B") [])).2).1,
             (union_member_type 2 true (named_type (PState.mk (lex "A B") [])).2).2)) :=
  claim_c3_member_continue_iff_tokens_remain 2 false (PState.mk (lex "A B") []) (by decide)

/-- C3 counterexample: in `union U = A\nB` the member A ends at byte 11
where its line ends; the remaining tokens are the newline trivia at byte 11
and the Name B at byte 12, which lies on the next line.  Under the claim
("parsing continues only if more tokens remain on the same line; it halts
at the end of the line") B would not be parsed as a member; the code
consumes it: the member list is ["A", "B"], with no error. -/
theorem claim_c3_counterexample :
    lex "union U = A\nB" =
      [Token.mk TokenKind.name "union" 0, Token.mk TokenKind.whitespace " " 5,
       Token.mk TokenKind.name "U" 6, Token.mk TokenKind.whitespace " " 7,
       Token.mk TokenKind.eq "=" 8, Token.mk TokenKind.whitespace " " 9,
       Token.mk TokenKind.name "A" 10, Token.mk TokenKind.whitespace "\n" 11,
       Token.mk TokenKind.name "B" 12] ∧
    memberNamesOf (union_type_definition (PState.mk (lex "union U = A\nB") [])).1 =
      ["A", "B"] ∧
    (union_type_definition (PState.mk (lex "union U = A\nB") [])).2.errors = [] := by
  refine ⟨?_, ?_, ?_⟩ <;> decide

/-- C2: parsing `union = Photo | Person` produces a UNION_TYPE_DEFINITION
node spanning bytes 0..22 that holds the union_KW token and a complete
UNION_MEMBER_TYPES subtree — EQ, then NAMED_TYPE Photo and NAMED_TYPE
Person separated by one PIPE — together with exactly one error,
"expected a Name" (recorded with the current token text "="): the missing
Name is reported but member-type parsing still proceeds, consuming the
whole input. -/
theorem claim_c2_missing_name_recovery :
    CST.kindOf (union_type_definition (PState.mk (lex "union = Photo | Person") [])).1 =
      SyntaxKind.UNION_TYPE_DEFINITION ∧
    CST.spanStart (union_type_definition (PState.mk (lex "union = Photo | Person") [])).1 = 0 ∧
    CST.spanStop (union_type_definition (PState.mk (lex "union = Photo | Person") [])).1 = 22 ∧
    countTopLeaf SyntaxKind.union_KW
      (union_type_definition (PState.mk (lex "union = Photo | Person") [])).1 = 1 ∧
    Option.map (fun m => (CST.childrenOf m).map CST.kindOf)
      (findTopNode SyntaxKind.UNION_MEMBER_TYPES
        (union_type_definition (PState.mk (lex "union = Photo | Person") [])).1) =
      some [SyntaxKind.EQ, SyntaxKind.WHITESPACE, SyntaxKind.NAMED_TYPE,
        SyntaxKind.PIPE, SyntaxKind.WHITESPACE, SyntaxKind.NAMED_TYPE] ∧
    memberNamesOf (union_type_definition (PState.mk (lex "union = Photo | Person") [])).1 =
      ["Photo", "Person"] ∧
    (union_type_definition (PState.mk (lex "union = Photo | Person") [])).2.errors =
      [PError.mk "expected a Name" "=" 0 false] ∧
    (union_type_definition (PState.mk (lex "union = Photo | Person") [])).2.tokens = [] := by
  refine ⟨?_, ?_, ?_, ?_, ?_, ?_, ?_, ?_⟩ <;> decide

/-- C4 witness: on the concrete input `= A` (no leading union keyword) the
no-keyword path applies, with the hypothesis discharged by evaluation. -/
theorem claim_c4_witness :
    union_type_definition (PState.mk (lex "= A") []) =
      (CST.node SyntaxKind.UNION_TYPE_DEFINITION
        ((utd_desc (PState.mk (lex "= A") [])).1 ++
          (utd_tail (utd_desc (PState.mk (lex "= A") [])).2).1),
       (utd_tail (utd_desc (PState.mk (lex "= A") [])).2).2) :=
  (claim_c4_utd_always_node_kw_iff (PState.mk (lex "= A") [])).2.2 (by decide)

/-! Lemmas about the memoizing database. -/

theorem lookupF_cons {α : Type} (f g : FileId) (v : α) (l : List (FileId × α)) :
    lookupF ((f, v) :: l) g = if f = g then some v else lookupF l g := by
  unfold lookupF
  by_cases hfg : f = g
  · rw [if_pos hfg]
    rw [List.find?_cons_of_pos _ (by simp [hfg])]
    rfl
  · rw [if_neg hfg]
    rw [List.find?_cons_of_neg _ (by simp [hfg])]

theorem removeF_some {α : Type} {l : List (FileId × α)} {f g : FileId} {v : α}
    (h : lookupF (removeF l f) g = some v) : ¬g = f ∧ lookupF l g = some v := by
  induction l with
  | nil => simp [removeF, lookupF] at h
  | cons p l ih =>
    by_cases hpf : p.1 = f
    · rw [show removeF (p :: l) f = removeF l f by simp [removeF, List.filter_cons, hpf]] at h
      obtain ⟨hne, hold⟩ := ih h
      refine ⟨hne, ?_⟩
      rw [show (p :: l) = (p.1, p.2) :: l by rfl, lookupF_cons]
      rw [if_neg (by rw [hpf]; exact fun hc => hne hc.symm)]
      exact hold
    · rw [show removeF (p :: l) f = (p.1, p.2) :: removeF l f by
        simp [removeF, List.filter_cons, hpf]] at h
      rw [lookupF_cons] at h
      by_cases hpg : p.1 = g
      · rw [if_pos hpg] at h
        refine ⟨?_, ?_⟩
        · rw [← hpg]; exact fun hc => hpf hc
        · rw [show (p :: l) = (p.1, p.2) :: l by rfl, lookupF_cons, if_pos hpg]
          exact h
      · rw [if_neg hpg] at h
        obtain ⟨hne, hold⟩ := ih h
        refine ⟨hne, ?_⟩
        rw [show (p :: l) = (p.1, p.2) :: l by rfl, lookupF_cons, if_neg hpg]
        exact hold

theorem goodCache_empty (i : DBInputs) : goodCache i Cache.empty := by
  refine ⟨?_, ?_, ?_, ?_, ?_⟩
  · intro f v h; simp [Cache.empty, lookupF] at h
  · intro f v h; simp [Cache.empty, lookupF] at h
  · intro v h; simp [Cache.empty] at h
  · intro f v h; simp [Cache.empty, lookupF] at h
  · intro v h; simp [Cache.empty] at h

theorem cstFn_congr {i2 i : DBInputs} (f : FileId)
    (hs : i2.source_code f = i.source_code f)
    (hr : i2.recursion_limit = i.recursion_limit)
    (ht : i2.token_limit = i.token_limit) : cstFn i2 f = cstFn i f := by
  unfold cstFn
  rw [hs, hr, ht]

theorem aprFn_congr {i2 i : DBInputs} (f : FileId)
    (hs : i2.source_code f = i.source_code f)
    (hr : i2.recursion_limit = i.recursion_limit)
    (ht : i2.token_limit = i.token_limit) :
    ast_parse_resultFn i2 f = ast_parse_resultFn i f := by
  unfold ast_parse_resultFn
  rw [cstFn_congr f hs hr ht]

theorem good_setInput {i : DBInputs} {c : Cache} (m : Mutation) (h : goodCache i c) :
    goodCache (setInput i m) (invalidate c m) := by
  obtain ⟨h1, h2, h3, h4, h5⟩ := h
  cases m with
  | set_source_code f text =>
    refine ⟨?_, ?_, ?_, ?_, ?_⟩
    · intro g v hv
      obtain ⟨hne, hold⟩ := removeF_some hv
      have hsrc : (setInput i (Mutation.set_source_code f text)).source_code g
          = i.source_code g := by
        simp only [setInput]
        rw [if_neg hne]
      rw [h1 g v hold]
      exact (cstFn_congr g hsrc rfl rfl).symm
    · intro g v hv
      obtain ⟨hne, hold⟩ := removeF_some hv
      have hsrc : (setInput i (Mutation.set_source_code f text)).source_code g
          = i.source_code g := by
        simp only [setInput]
        rw [if_neg hne]
      rw [h2 g v hold]
      exact (aprFn_congr g hsrc rfl rfl).symm
    · intro v hv; simp [invalidate] at hv
    · intro g v hv; simp [invalidate, lookupF] at hv
    · intro v hv; simp [invalidate] at hv
  | set_file_kind f k => exact ⟨h1, h2, h3, h4, h5⟩
  | set_type_definition_files l =>
    refine ⟨?_, ?_, ?_, ?_, ?_⟩
    · intro g v hv; exact h1 g v hv
    · intro g v hv; exact h2 g v hv
    · intro v hv; simp [invalidate] at hv
    · intro g v hv; simp [invalidate, lookupF] at hv
    · intro v hv; simp [invalidate] at hv
  | set_recursion_limit n => exact goodCache_empty _
  | set_token_limit n => exact goodCache_empty _

theorem runCst_ok {st : DBState} (f : FileId) (h : goodCache st.inputs st.cache) :
    (runCst st f).1 = cstFn st.inputs f ∧ (runCst st f).2.inputs = st.inputs ∧
      goodCache st.inputs (runCst st f).2.cache := by
  obtain ⟨h1, h2, h3, h4, h5⟩ := h
  unfold runCst
  cases hl : lookupF st.cache.cstC f with
  | some v => exact ⟨h1 f v hl, rfl, h1, h2, h3, h4, h5⟩
  | none =>
    refine ⟨rfl, rfl, ?_, h2, h3, h4, h5⟩
    intro g v hv
    rw [lookupF_cons] at hv
    by_cases hfg : f = g
    · rw [if_pos hfg] at hv
      rw [← hfg]
      exact (Option.some.inj hv).symm
    · rw [if_neg hfg] at hv
      exact h1 g v hv

theorem runApr_ok {st : DBState} (f : FileId) (h : goodCache st.inputs st.cache) :
    (runApr st f).1 = ast_parse_resultFn st.inputs f ∧ (runApr st f).2.inputs = st.inputs ∧
      goodCache st.inputs (runApr st f).2.cache := by
  obtain ⟨hc1, hc2, hc3⟩ := runCst_ok f h
  obtain ⟨h1, h2, h3, h4, h5⟩ := h
  unfold runApr
  cases hl : lookupF st.cache.aprC f with
  | some v => exact ⟨h2 f v hl, rfl, h1, h2, h3, h4, h5⟩
  | none =>
    obtain ⟨g1, g2, g3, g4, g5⟩ := hc3
    have hval : ParseResult.mk (from_cst (runCst st f).1.document)
        ((runCst st f).1.errors.map (toDiagnostic f)) (runCst st f).1.recursionHigh
        (runCst st f).1.tokensHigh = ast_parse_resultFn st.inputs f := by
      rw [hc1]
      rfl
    refine ⟨hval, hc2, g1, ?_, g3, g4, g5⟩
    intro g v hv
    rw [lookupF_cons] at hv
    by_cases hfg : f = g
    · rw [if_pos hfg] at hv
      rw [← hfg, ← hval]
      exact (Option.some.inj hv).symm
    · rw [if_neg hfg] at hv
      exact g2 g v hv

theorem runAst_ok {st : DBState} (f : FileId) (h : goodCache st.inputs st.cache) :
    (runAst st f).1 = astFn st.inputs f ∧ (runAst st f).2.inputs = st.inputs ∧
      goodCache st.inputs (runAst st f).2.cache := by
  obtain ⟨hc1, hc2, hc3⟩ := runApr_ok f h
  exact ⟨congrArg ParseResult.document hc1, hc2, hc3⟩

theorem runAstList_ok :
    ∀ (fs : List FileId) (st : DBState), goodCache st.inputs st.cache →
      (runAstList st fs).1 = fs.map (fun f => astFn st.inputs f) ∧
        (runAstList st fs).2.inputs = st.inputs ∧
        goodCache st.inputs (runAstList st fs).2.cache := by
  intro fs
  induction fs with
  | nil => intro st h; exact ⟨rfl, rfl, h⟩
  | cons f fs ih =>
    intro st h
    obtain ⟨hc1, hc2, hc3⟩ := runAst_ok f h
    have hgood2 : goodCache (runAst st f).2.inputs (runAst st f).2.cache := by
      rw [hc2]; exact hc3
    obtain ⟨hl1, hl2, hl3⟩ := ih (runAst st f).2 hgood2
    rw [hc2] at hl1 hl2 hl3
    refine ⟨?_, ?_, ?_⟩
    · unfold runAstList
      simp only []
      rw [hl1, hc1, List.map_cons]
    · unfold runAstList
      simp only []
      rw [hl2]
    · exact hl3

theorem runSchema_ok {st : DBState} (h : goodCache st.inputs st.cache) :
    (runSchema st).1 = schemaFn st.inputs ∧ (runSchema st).2.inputs = st.inputs ∧
      goodCache st.inputs (runSchema st).2.cache := by
  obtain ⟨h1, h2, h3, h4, h5⟩ := h
  unfold runSchema
  cases hl : st.cache.schemaC with
  | some v => exact ⟨h3 v hl, rfl, h1, h2, h3, h4, h5⟩
  | none =>
    obtain ⟨hL1, hL2, hL3⟩ := runAstList_ok st.inputs.type_definition_files st
      ⟨h1, h2, h3, h4, h5⟩
    obtain ⟨g1, g2, g3, g4, g5⟩ := hL3
    have hval : (buildSchema (runAstList st st.inputs.type_definition_files).1).1
        = schemaFn st.inputs := by
      rw [hL1]
      rfl
    exact ⟨hval, hL2, g1, g2, fun v hv => by rw [← hval]; exact (Option.some.inj hv).symm,
      g4, g5⟩

theorem runExec_ok {st : DBState} (f : FileId) (h : goodCache st.inputs st.cache) :
    (runExec st f).1 = executable_documentFn st.inputs f ∧
      (runExec st f).2.inputs = st.inputs ∧
      goodCache st.inputs (runExec st f).2.cache := by
  obtain ⟨h1, h2, h3, h4, h5⟩ := h
  unfold runExec
  cases hl : lookupF st.cache.execC f with
  | some v => exact ⟨h4 f v hl, rfl, h1, h2, h3, h4, h5⟩
  | none =>
    obtain ⟨hs1, hs2, hs3⟩ := runSchema_ok ⟨h1, h2, h3, h4, h5⟩
    have hgood2 : goodCache (runSchema st).2.inputs (runSchema st).2.cache := by
      rw [hs2]; exact hs3
    obtain ⟨ha1, ha2, ha3⟩ := runAst_ok f hgood2
    rw [hs2] at ha1 ha2 ha3
    obtain ⟨g1, g2, g3, g4, g5⟩ := ha3
    have hval : from_ast (runSchema st).1 (runAst (runSchema st).2 f).1
        = executable_documentFn st.inputs f := by
      rw [hs1, ha1]
      rfl
    refine ⟨hval, ha2, g1, g2, g3, ?_, g5⟩
    intro g v hv
    rw [lookupF_cons] at hv
    by_cases hfg : f = g
    · rw [if_pos hfg] at hv
      rw [← hfg, ← hval]
      exact (Option.some.inj hv).symm
    · rw [if_neg hfg] at hv
      exact g4 g v hv

theorem runImpl_ok {st : DBState} (h : goodCache st.inputs st.cache) :
    (runImpl st).1 = implementers_mapFn st.inputs ∧ (runImpl st).2.inputs = st.inputs ∧
      goodCache st.inputs (runImpl st).2.cache := by
  obtain ⟨h1, h2, h3, h4, h5⟩ := h
  unfold runImpl
  cases hl : st.cache.implC with
  | some v => exact ⟨h5 v hl, rfl, h1, h2, h3, h4, h5⟩
  | none =>
    obtain ⟨hs1, hs2, hs3⟩ := runSchema_ok ⟨h1, h2, h3, h4, h5⟩
    obtain ⟨g1, g2, g3, g4, g5⟩ := hs3
    have hval : Schema.implementers_map (runSchema st).1 = implementers_mapFn st.inputs := by
      rw [hs1]
      rfl
    exact ⟨hval, hs2, g1, g2, g3, g4,
      fun v hv => by rw [← hval]; exact (Option.some.inj hv).symm⟩

theorem runIsSub_ok {st : DBState} (a m : String) (h : goodCache st.inputs st.cache) :
    (runIsSub st a m).1 = is_subtypeFn st.inputs a m ∧
      (runIsSub st a m).2.inputs = st.inputs ∧
      goodCache st.inputs (runIsSub st a m).2.cache := by
  obtain ⟨hs1, hs2, hs3⟩ := runSchema_ok h
  have hgood2 : goodCache (runSchema st).2.inputs (runSchema st).2.cache := by
    rw [hs2]; exact hs3
  obtain ⟨hi1, hi2, hi3⟩ := runImpl_ok hgood2
  rw [hs2] at hi1 hi2 hi3
  refine ⟨?_, hi2, hi3⟩
  unfold runIsSub is_subtypeFn
  simp only []
  rw [hs1, hi1]

theorem runQuery_ok {st : DBState} (q : Query) (h : goodCache st.inputs st.cache) :
    (runQuery st q).1 = fromScratch st.inputs q ∧ (runQuery st q).2.inputs = st.inputs ∧
      goodCache st.inputs (runQuery st q).2.cache := by
  cases q with
  | cstQ f =>
    obtain ⟨c1, c2, c3⟩ := runCst_ok f h
    exact ⟨congrArg QVal.tree c1, c2, c3⟩
  | aprQ f =>
    obtain ⟨c1, c2, c3⟩ := runApr_ok f h
    exact ⟨congrArg QVal.pres c1, c2, c3⟩
  | astQ f =>
    obtain ⟨c1, c2, c3⟩ := runAst_ok f h
    exact ⟨congrArg QVal.doc c1, c2, c3⟩
  | synQ f =>
    obtain ⟨c1, c2, c3⟩ := runApr_ok f h
    exact ⟨congrArg (fun (p : ParseResult) => QVal.diags p.syntax_errors) c1, c2, c3⟩
  | recQ f =>
    obtain ⟨c1, c2, c3⟩ := runApr_ok f h
    exact ⟨congrArg (fun (p : ParseResult) => QVal.num p.recursion_reached) c1, c2, c3⟩
  | tokQ f =>
    obtain ⟨c1, c2, c3⟩ := runApr_ok f h
    exact ⟨congrArg (fun (p : ParseResult) => QVal.num p.tokens_reached) c1, c2, c3⟩
  | schemaQ =>
    obtain ⟨c1, c2, c3⟩ := runSchema_ok h
    exact ⟨congrArg QVal.sch c1, c2, c3⟩
  | execQ f =>
    obtain ⟨c1, c2, c3⟩ := runExec_ok f h
    exact ⟨congrArg QVal.exec c1, c2, c3⟩
  | implQ =>
    obtain ⟨c1, c2, c3⟩ := runImpl_ok h
    exact ⟨congrArg QVal.impl c1, c2, c3⟩
  | isSubQ a m =>
    obtain ⟨c1, c2, c3⟩ := runIsSub_ok a m h
    exact ⟨congrArg QVal.boolV c1, c2, c3⟩

theorem good_stepOp {st : DBState} (op : DBOp) (h : goodCache st.inputs st.cache) :
    goodCache (stepOp st op).inputs (stepOp st op).cache := by
  cases op with
  | mutOp m => exact good_setInput m h
  | queryOp q =>
    obtain ⟨_, c2, c3⟩ := runQuery_ok q h
    unfold stepOp
    rw [c2]
    exact c3

theorem good_runOps (ops : List DBOp) :
    ∀ st : DBState, goodCache st.inputs st.cache →
      goodCache (runOps st ops).inputs (runOps st ops).cache := by
  induction ops with
  | nil => intro st h; exact h
  | cons op ops ih =>
    intro st h
    exact ih (stepOp st op) (good_stepOp op h)

/-- C1: cache soundness of the query database.  Starting from the fresh
database, after any sequence of operations — input mutations
(set_source_code, set_file_kind, set_type_definition_files,
set_recursion_limit, set_token_limit) interleaved with arbitrary query
evaluations that populate the memo tables — the value returned by any
derived query (cst, ast_parse_result, ast, syntax_errors,
recursion_reached, tokens_reached, schema, executable_document,
implementers_map, is_subtype) equals the value that query computes from
scratch against the final inputs. -/
theorem claim_c1_cache_soundness (ops : List DBOp) (q : Query) :
    (runQuery (runOps initState ops) q).1 = fromScratch (runOps initState ops).inputs q :=
  (runQuery_ok q (good_runOps ops initState (goodCache_empty initState.inputs))).1

/-- C7: the transparent queries are projections of the single
ast_parse_result query: at the function level ast, syntax_errors,
recursion_reached and tokens_reached each return the corresponding field of
_ast_parse_result, and at the evaluation level each one runs
ast_parse_result (sharing its cache entry, with no slot of its own) and
projects the field out of its result. -/
theorem claim_c7_transparent_projections (i : DBInputs) (f : FileId) (st : DBState) :
    astFn i f = (ast_parse_resultFn i f).document ∧
    syntax_errorsFn i f = (ast_parse_resultFn i f).syntax_errors ∧
    recursion_reachedFn i f = (ast_parse_resultFn i f).recursion_reached ∧
    tokens_reachedFn i f = (ast_parse_resultFn i f).tokens_reached ∧
    runAst st f = ((runApr st f).1.document, (runApr st f).2) ∧
    runSyn st f = ((runApr st f).1.syntax_errors, (runApr st f).2) ∧
    runRec st f = ((runApr st f).1.recursion_reached, (runApr st f).2) ∧
    runTok st f = ((runApr st f).1.tokens_reached, (runApr st f).2) :=
  ⟨rfl, rfl, rfl, rfl, rfl, rfl, rfl, rfl⟩

/-- C8: the schema query is total — for every database input it returns a
Schema value (a record of types plus its diagnostic list, with no failure
variant) — while executable_document is the fallible query, returning
either an ExecutableDocument or a TypeError. -/
theorem claim_c8_schema_total_executable_fallible (i : DBInputs) (f : FileId) :
    (∃ types diags, schemaFn i = Schema.mk types diags) ∧
    ((∃ d, executable_documentFn i f = Except.ok d) ∨
     (∃ e, executable_documentFn i f = Except.error e)) := by
  constructor
  · exact ⟨(schemaFn i).types, (schemaFn i).build_diagnostics, rfl⟩
  · cases hx : executable_documentFn i f with
    | ok d => exact Or.inl ⟨d, rfl⟩
    | error e => exact Or.inr ⟨e, rfl⟩

/-- C9: the subtype relation is strict on concrete types: whenever the name
a is defined in the schema as an object type, is_subtype a a is false — for
any implementers map, in particular the schema's own, and through the
database query — because is_subtype holds exactly when the abstract type is
an interface whose implementers contain the candidate or a union whose
members contain it. -/
theorem claim_c9_subtype_strict_on_objects (s : Schema) (a : String) (impls : List String)
    (h : assocFind s.types a = some (ExtendedType.objectT impls)) :
    (∀ imap : List (String × List String), Schema.is_subtype s imap a a = false) ∧
    (∀ (imap : List (String × List String)) (b m : String),
      Schema.is_subtype s imap b m = true ↔
        ((∃ l, assocFind s.types b = some (ExtendedType.interfaceT l) ∧
            ((assocFind imap b).getD []).contains m = true) ∨
         (∃ mems, assocFind s.types b = some (ExtendedType.unionT mems) ∧
            mems.contains m = true))) ∧
    (∀ i : DBInputs, schemaFn i = s → is_subtypeFn i a a = false) := by
  have hgen : ∀ (imap : List (String × List String)) (b m : String),
      Schema.is_subtype s imap b m = true ↔
        ((∃ l, assocFind s.types b = some (ExtendedType.interfaceT l) ∧
            ((assocFind imap b).getD []).contains m = true) ∨
         (∃ mems, assocFind s.types b = some (ExtendedType.unionT mems) ∧
            mems.contains m = true)) := by
    intro imap b m
    unfold Schema.is_subtype
    cases hb : assocFind s.types b with
    | none => simp
    | some t => cases t <;> simp
  have hobj : ∀ imap : List (String × List String),
      Schema.is_subtype s imap a a = false := by
    intro imap
    unfold Schema.is_subtype
    rw [h]
  refine ⟨hobj, hgen, ?_⟩
  intro i hi
  unfold is_subtypeFn implementers_mapFn
  rw [hi]
  exact hobj (Schema.implementers_map s)

/-- C9 witness: in the one-type schema holding the object type A, the
subtype query at (A, A) returns false. -/
theorem claim_c9_witness :
    Schema.is_subtype (Schema.mk [("A", ExtendedType.objectT [])] [])
      (Schema.implementers_map (Schema.mk [("A", ExtendedType.objectT [])] [])) "A" "A"
      = false :=
  (claim_c9_subtype_strict_on_objects (Schema.mk [("A", ExtendedType.objectT [])] [])
    "A" [] (by decide)).1
    (Schema.implementers_map (Schema.mk [("A", ExtendedType.objectT [])] []))

/-- C10: at the database surface orphan extensions are discarded: the
schema query returns exactly the Schema component of the builder's result,
and whenever two input states give builders with equal Schema components —
whatever their orphan extensions — every schema-derived query
(implementers_map, is_subtype, and executable_document given equal ASTs)
agrees on them: the orphan component is observable through no derived
query. -/
theorem claim_c10_orphans_discarded (i j : DBInputs)
    (h : (buildSchema (i.type_definition_files.map fun f => astFn i f)).1 =
         (buildSchema (j.type_definition_files.map fun f => astFn j f)).1) :
    schemaFn i = (buildSchema (i.type_definition_files.map fun f => astFn i f)).1 ∧
    schemaFn i = schemaFn j ∧
    implementers_mapFn i = implementers_mapFn j ∧
    (∀ a m, is_subtypeFn i a m = is_subtypeFn j a m) ∧
    (∀ f, astFn i f = astFn j f →
      executable_documentFn i f = executable_documentFn j f) := by
  have hs : schemaFn i = schemaFn j := h
  refine ⟨rfl, hs, ?_, ?_, ?_⟩
  · unfold implementers_mapFn
    rw [hs]
  · intro a m
    unfold is_subtypeFn implementers_mapFn
    rw [hs]
  · intro f hast
    unfold executable_documentFn
    rw [hs, hast]

/-- C10 witness: a database whose one schema file holds only an orphan
union extension builds the same (empty) Schema as the empty database — the
builders differ in their orphan components but in no Schema component — so
all schema-derived queries agree between the two. -/
theorem claim_c10_witness :
    (buildSchema (orphanOnlyInputs.type_definition_files.map
        fun f => astFn orphanOnlyInputs f)).2 ≠
      (buildSchema (initState.inputs.type_definition_files.map
        fun f => astFn initState.inputs f)).2 ∧
    implementers_mapFn orphanOnlyInputs = implementers_mapFn initState.inputs ∧
    (∀ a m, is_subtypeFn orphanOnlyInputs a m = is_subtypeFn initState.inputs a m) := by
  have hmain := claim_c10_orphans_discarded orphanOnlyInputs initState.inputs (by decide)
  exact ⟨by decide, hmain.2.2.1, hmain.2.2.2.1⟩

end ApolloRs
